import Mathlib

/-!
Verification development for the flowify workflow engine.

Each definition in the first part of this file is a shallow embedding of a
function or class of the TypeScript source (the source file and symbol are
named in the doc comment).  JavaScript `Map`s are modelled as association
lists in insertion order, JS numbers as `Nat`/`Int`, thrown exceptions as
`Except`, and `async` control flow as explicit sequencing.  Side effects
(event emission, context writes, body invocations, sleeps) are recorded in
explicit trace lists so that theorems can speak about what the code does and
does not do.
-/

namespace Flowify

/-- Model of JavaScript `unknown` values flowing through the engine
(step outputs, globals, tool params).  `vundefined` is JS `undefined`. -/
inductive Value where
  | vundefined
  | vnull
  | vbool (b : Bool)
  | vnum (n : Int)
  | vstr (s : String)
  | varr (elems : List Value)
  | vobj (fields : List (String × Value))


/-- Lookup in an association list, the model of JS `Map.get`. -/
def lookupA {α : Type} (m : List (String × α)) (k : String) : Option α :=
  match m with
  | [] => none
  | (k', v) :: rest => if k' = k then some v else lookupA rest k

/-- Model of JS `Map.set`: overwrite in place if the key exists, else append
(JS `Map` iteration is in insertion order). -/
def setA {α : Type} (m : List (String × α)) (k : String) (v : α) : List (String × α) :=
  match m with
  | [] => [(k, v)]
  | (k', v') :: rest => if k' = k then (k, v) :: rest else (k', v') :: setA rest k v

/-- Model of JS `Map.delete`. -/
def eraseA {α : Type} (m : List (String × α)) (k : String) : List (String × α) :=
  match m with
  | [] => []
  | (k', v') :: rest => if k' = k then rest else (k', v') :: eraseA rest k

/-- Update the value stored at a key if present (models `map.get(k)!` followed
by in-place mutation of the stored object); no-op when the key is absent. -/
def modifyA {α : Type} (m : List (String × α)) (k : String) (f : α → α) : List (String × α) :=
  match m with
  | [] => []
  | (k', v') :: rest => if k' = k then (k', f v') :: rest else (k', v') :: modifyA rest k f

/-- Model of `Context` (src/packages/engine/src/context/index.ts): two
independent key-value namespaces for step outputs and globals. -/
structure Context where
  stepOutputs : List (String × Value)
  globals : List (String × Value)


/-- Model of `Context.setStepOutput`. -/
def Context.setStepOutput (c : Context) (stepId : String) (v : Value) : Context :=
  { c with stepOutputs := setA c.stepOutputs stepId v }

/-- Model of `Context.setGlobal`. -/
def Context.setGlobal (c : Context) (key : String) (v : Value) : Context :=
  { c with globals := setA c.globals key v }

/-- Model of `Context.getStepOutput` (JS returns `undefined` for a missing
key, modelled as `Value.vundefined`). -/
def Context.getStepOutput (c : Context) (stepId : String) : Value :=
  (lookupA c.stepOutputs stepId).getD .vundefined

/-- Model of `Context.getGlobal`. -/
def Context.getGlobal (c : Context) (key : String) : Value :=
  (lookupA c.globals key).getD .vundefined

/-! ## Event bus (src/src/events/index.ts, `EventEmitter`)

`EventEmitter.emit` looks up the `Set` of listeners registered for the
event's type and calls each in registration order, with no `try`/`catch`
around the calls.  A subscriber is modelled as an id together with a handler
that either returns normally (`Except.ok`) or throws (`Except.error`).
`emitOn` returns the ids of the subscribers that were actually invoked,
paired with the exception that escaped `emit`, if any. -/

/-- Minimal model of a `WorkflowEvent` as far as subscribers can inspect it. -/
structure BusEvent where
  type : String
  workflowId : String := ""
  instanceId : String := ""
  payload : Value := .vundefined


/-- Model of a registered event listener: an identifying tag plus the
listener function, which may throw. -/
structure Subscriber where
  id : Nat
  handler : BusEvent → Except String Unit

/-- Model of the loop body of `EventEmitter.emit` over the listener set of
the event's type: call each listener in order; an exception stops the loop
and escapes.  Returns (ids of listeners that were invoked, escaped
exception). -/
def emitOn (ls : List Subscriber) (e : BusEvent) : List Nat × Option String :=
  match ls with
  | [] => ([], none)
  | l :: rest =>
    match l.handler e with
    | .ok _ =>
      let r := emitOn rest e
      (l.id :: r.1, r.2)
    | .error msg => ([l.id], some msg)

/-- Model of `EventEmitter.emit` including the listener-table lookup: with no
listener set registered for the event type, emit returns immediately. -/
def emit (listeners : List (String × List Subscriber)) (e : BusEvent) :
    List Nat × Option String :=
  match lookupA listeners e.type with
  | none => ([], none)
  | some ls => emitOn ls e

/-! ## Core data model (src/unnamed/part_000, core/types.ts) -/

/-- Model of the `StepStatus` enum. -/
inductive StepStatus where
  | pending
  | running
  | waitingInput
  | success
  | failed
  | skipped
deriving DecidableEq

/-- Model of `RetryPolicy`.  Optional TS fields are `Option`s; JS numbers are
modelled as `Nat` (the engine only ever uses non-negative integral values
here). -/
structure RetryPolicy where
  maxRetries : Nat
  retryInterval : Nat
  exponentialBackoff : Option Bool := none
  backoffMultiplier : Option Nat := none
deriving DecidableEq

/-- Model of `SkipPolicy`.  The condition is modelled in its callback form
`(context) => boolean`; the expression-string form is compiled with the JS
`Function` constructor in the source (`SkipStrategy.evaluateConditionExpression`)
and has no shallow embedding, but `executeStep` only consumes the boolean
outcome of `shouldSkip`, which the callback form covers.  A missing
`defaultOutput` is JS `undefined` (`Value.vundefined`). -/
structure SkipPolicy where
  condition : Context → Bool
  defaultOutput : Value := .vundefined

/-- Model of a mutable `HookContext` during a hook chain
(src/packages/engine/src/hooks/index.ts): the current (possibly modified)
step input, the `inputModified` flag, and the workflow context the hook can
mutate. -/
structure HookCtxState where
  stepInput : Value
  inputModified : Bool
  ctx : Context
  stepOutput : Option Value := none

/-- Model of `HookHandler`: id, display name, and the user callback.  The
callback receives the hook context, may modify it (via `modifyInput` /
context writes) and may throw (`Except.error`). -/
structure HookHandler where
  id : String
  name : String := ""
  handler : HookCtxState → Except String HookCtxState

/-- Model of `HookDefinition` (step-level hook lists; both optional in TS). -/
structure HookDefinition where
  beforeHooks : Option (List HookHandler) := none
  afterHooks : Option (List HookHandler) := none

/-- Model of `HookExecutionError` (core/errors.ts): hook id, phase, step id
and the wrapped error message. -/
structure HookExecutionError where
  hookId : String
  phase : String
  stepId : String
  message : String
deriving DecidableEq

/-- Model of `StepDefinition`, restricted to the fields consumed by the
scheduler and the executor (`config`, `ui` and `tools` are opaque to both). -/
structure StepDefinition where
  id : String
  name : String := ""
  type : String := "task"
  dependencies : Option (List String) := none
  retryPolicy : Option RetryPolicy := none
  skipPolicy : Option SkipPolicy := none
  hooks : Option HookDefinition := none

/-- Model of `WorkflowDefinition` (fields consumed by the scheduler). -/
structure WorkflowDefinition where
  id : String
  name : String := ""
  steps : List StepDefinition

/-! ## Hook manager (src/packages/engine/src/hooks/index.ts, `HookManager`) -/

/-- Loop body of `HookManager.executeBeforeHooks`: run the hooks in order on
the shared mutable hook context, aborting at the first throw.  Returns the
final hook-context state and, on abort, the raised `HookExecutionError`. -/
def runBeforeChain (stepId : String) (hooks : List HookHandler) (st : HookCtxState) :
    HookCtxState × Option HookExecutionError :=
  match hooks with
  | [] => (st, none)
  | h :: rest =>
    match h.handler st with
    | .ok st' => runBeforeChain stepId rest st'
    | .error msg => (st, some ⟨h.id, "before", stepId, msg⟩)

/-- Loop body of `HookManager.executeAfterHooks`: run every hook, collecting
errors without aborting.  Returns the final state and the collected errors in
order. -/
def runAfterChain (stepId : String) (hooks : List HookHandler) (st : HookCtxState) :
    HookCtxState × List HookExecutionError :=
  match hooks with
  | [] => (st, [])
  | h :: rest =>
    match h.handler st with
    | .ok st' => runAfterChain stepId rest st'
    | .error msg =>
      let r := runAfterChain stepId rest st
      (r.1, ⟨h.id, "after", stepId, msg⟩ :: r.2)

/-- Model of `HookExecutionResult` (the context is returned alongside because
the JS code mutates it in place). -/
structure HookExecutionResult where
  success : Bool
  modifiedInput : Option Value := none
  error : Option HookExecutionError := none

/-- Model of `HookManager.executeBeforeHooks`: run `globalBefore ++
stepHooks.beforeHooks` in order; the first throw aborts the chain.  On
success, `modifiedInput` is the hook context's input if any hook called
`modifyInput`, else the original input. -/
def executeBeforeHooks (globalBefore : List HookHandler) (stepId : String)
    (stepInput : Value) (ctx : Context) (stepHooks : Option HookDefinition) :
    HookExecutionResult × Context :=
  let hooksToExecute := globalBefore ++ ((stepHooks.map (fun h => h.beforeHooks.getD [])).getD [])
  let st0 : HookCtxState := ⟨stepInput, false, ctx, none⟩
  let r := runBeforeChain stepId hooksToExecute st0
  match r.2 with
  | some err => (⟨false, none, some err⟩, r.1.ctx)
  | none =>
    (⟨true, some (if r.1.inputModified then r.1.stepInput else stepInput), none⟩, r.1.ctx)

/-- Model of `HookManager.executeAfterHooks`: run `stepHooks.afterHooks ++
globalAfter`; failures are collected and do not abort; the result is always
successful, surfacing the first collected error. -/
def executeAfterHooks (globalAfter : List HookHandler) (stepId : String)
    (stepInput : Value) (stepOutput : Value) (ctx : Context)
    (stepHooks : Option HookDefinition) : HookExecutionResult × Context :=
  let hooksToExecute := ((stepHooks.map (fun h => h.afterHooks.getD [])).getD []) ++ globalAfter
  let st0 : HookCtxState := ⟨stepInput, false, ctx, some stepOutput⟩
  let r := runAfterChain stepId hooksToExecute st0
  (⟨true, none, r.2.head?⟩, r.1.ctx)

/-! ## Step executor (src/unnamed/part_005, executor module)

The executor is embedded together with an explicit trace of its observable
actions: events emitted on the event bus, body invocations, sleeps between
retries, the after-hook phase, and `context.setStepOutput` commits.  The step
body (`executeFn`) is modelled as a function of the attempt number (1-based),
the input, and the context; it returns the possibly mutated context and
either an output (`Except.ok`) or a thrown error message (`Except.error`).

Cancellation (`Executor.cancelledSteps`) is mutated concurrently by
`cancelStep` while `executeWithRetry` sleeps.  This is modelled by
`cancelSleep : Option Nat`: `some j` means the flag is set during the j-th
sleep (so every check performed after at least j sleeps have completed
observes it; `some 0` means the step was cancelled before execution began),
and `none` means the step is never cancelled. -/

/-- Model of the errors a `StepResult` can carry. -/
inductive ExecError where
  | cancelledStep
  | stepExecution (message : String) (stepId : String)
  | hookError (e : HookExecutionError)
deriving DecidableEq

/-- Model of `StepResult`.  A missing `output` property is JS `undefined`. -/
structure StepResult where
  stepId : String
  status : StepStatus
  output : Value := .vundefined
  error : Option ExecError := none
  retryCount : Option Nat := none

/-- Model of the step body `StepExecuteFn`, indexed by the attempt number. -/
def ExecBody : Type :=
  Nat → Value → Context → Context × Except String Value

/-- Trace of the executor's observable actions, in order. -/
inductive TraceEv where
  | stepStart (attempt : Nat)
  | stepComplete (retryCount : Option Nat)
  | stepRetry (attempt : Nat) (maxRetries : Nat)
  | stepFailedExhausted (retryCount : Nat) (maxRetries : Nat)
  | stepFailedBeforeHook
  | stepSkip
  | invokeBody (attempt : Nat)
  | sleep (ms : Nat)
  | runAfterHooks
  | commit (stepId : String) (output : Value)

/-- Whether the cancellation flag is visible at a check performed after
`sleepsDone` sleeps have completed. -/
def cancelVisible (cancelSleep : Option Nat) (sleepsDone : Nat) : Bool :=
  match cancelSleep with
  | some j => j ≤ sleepsDone
  | none => false

/-- Model of `RetryStrategy.canRetry` with the current retry count made
explicit. -/
def canRetry (p : RetryPolicy) (currentRetryCount : Nat) : Bool :=
  currentRetryCount < p.maxRetries

/-- Model of `RetryStrategy.getNextRetryInterval`: the base interval, or
`base * multiplier ^ currentRetryCount` when exponential backoff is enabled
(multiplier defaults to 2). -/
def getNextRetryInterval (p : RetryPolicy) (currentRetryCount : Nat) : Nat :=
  if (p.exponentialBackoff.getD false) = false then p.retryInterval
  else p.retryInterval * (p.backoffMultiplier.getD 2) ^ currentRetryCount

/-- Model of `Executor.executeSingleAttempt`: invoke the body once; a thrown
error is wrapped as a `StepExecutionError`. -/
def executeSingleAttempt (stepId : String) (body : ExecBody) (attempt : Nat)
    (input : Value) (ctx : Context) : StepResult × Context × List TraceEv :=
  let r := body attempt input ctx
  match r.2 with
  | .ok output => (⟨stepId, .success, output, none, none⟩, r.1, [.invokeBody attempt])
  | .error msg =>
    (⟨stepId, .failed, .vundefined, some (.stepExecution msg stepId), none⟩, r.1, [.invokeBody attempt])

/-- Model of the retry loop of `Executor.executeWithRetry` (the `while
(retryStrategy.canRetry())` loop), entered after the first attempt failed.
`count` is `RetryStrategy.currentRetryCount` (also the number of sleeps
completed so far), `lastError` the error of the most recent attempt.  The
loop recurses on an explicit `fuel`; the caller passes `p.maxRetries`, which
always exceeds the number of remaining iterations (`canRetry` bounds them by
`p.maxRetries - count`), so the fuel-exhaustion branch is unreachable from
`executeWithRetry`. -/
def retryLoop (stepId : String) (body : ExecBody) (cancelSleep : Option Nat)
    (p : RetryPolicy) (input : Value) :
    Nat → Nat → Context → ExecError → StepResult × Context × List TraceEv
  | fuel, count, ctx, lastError =>
    if count < p.maxRetries then
      match fuel with
      | 0 =>
        (⟨stepId, .failed, .vundefined, some lastError, some count⟩, ctx,
          [.stepFailedExhausted count p.maxRetries])
      | f + 1 =>
        if cancelVisible cancelSleep count then
          (⟨stepId, .failed, .vundefined, some .cancelledStep, some count⟩, ctx, [])
        else
          let interval := getNextRetryInterval p count
          let count' := count + 1
          let a := executeSingleAttempt stepId body (count' + 1) input ctx
          let pre : List TraceEv := [.sleep interval, .stepRetry (count' + 1) p.maxRetries]
          if a.1.status = .success then
            ({ a.1 with retryCount := some count' }, a.2.1,
              pre ++ a.2.2 ++ [.stepComplete (some count')])
          else
            let err := a.1.error.getD lastError
            let r := retryLoop stepId body cancelSleep p input f count' a.2.1 err
            (r.1, r.2.1, pre ++ a.2.2 ++ r.2.2)
    else
      (⟨stepId, .failed, .vundefined, some lastError, some count⟩, ctx,
        [.stepFailedExhausted count p.maxRetries])

/-- Model of `Executor.executeWithRetry`: with no retry policy, a single
attempt with no events; with a retry policy, `StepStart(attempt=1)` followed
by the first attempt, `StepComplete` on success, else the retry loop. -/
def executeWithRetry (stepId : String) (body : ExecBody) (cancelSleep : Option Nat)
    (input : Value) (retryPolicy : Option RetryPolicy) (ctx : Context) :
    StepResult × Context × List TraceEv :=
  match retryPolicy with
  | none => executeSingleAttempt stepId body 1 input ctx
  | some p =>
    let a := executeSingleAttempt stepId body 1 input ctx
    let pre : List TraceEv := .stepStart 1 :: a.2.2
    if a.1.status = .success then
      (a.1, a.2.1, pre ++ [.stepComplete none])
    else
      let err := a.1.error.getD (.stepExecution "" stepId)
      let r := retryLoop stepId body cancelSleep p input p.maxRetries 0 a.2.1 err
      (r.1, r.2.1, pre ++ r.2.2)

/-- Model of `Executor.executeStep` after the entry cancellation check and
the skip check: before-hooks, body under retry, then (on success only)
after-hooks and the output commit. -/
def executeStepCore (globalBefore globalAfter : List HookHandler)
    (cancelSleep : Option Nat) (step : StepDefinition) (ctx : Context)
    (body : ExecBody) (input : Value) : StepResult × Context × List TraceEv :=
  let b := executeBeforeHooks globalBefore step.id input ctx step.hooks
  if b.1.success then
    let actualInput := b.1.modifiedInput.getD input
    let r := executeWithRetry step.id body cancelSleep actualInput step.retryPolicy b.2
    if r.1.status = .success then
      let a := executeAfterHooks globalAfter step.id actualInput r.1.output r.2.1 step.hooks
      (r.1, a.2.setStepOutput step.id r.1.output,
        r.2.2 ++ [.runAfterHooks, .commit step.id r.1.output])
    else
      (r.1, r.2.1, r.2.2)
  else
    (⟨step.id, .failed, .vundefined, b.1.error.map .hookError, none⟩, b.2,
      [.stepFailedBeforeHook])

/-- Model of `Executor.executeStep`: entry cancellation check, then the skip
policy (emitting `StepSkip` and committing the default output when it
triggers), then `executeStepCore`. -/
def executeStep (globalBefore globalAfter : List HookHandler)
    (cancelSleep : Option Nat) (step : StepDefinition) (ctx : Context)
    (body : ExecBody) (input : Value) : StepResult × Context × List TraceEv :=
  if cancelVisible cancelSleep 0 then
    (⟨step.id, .failed, .vundefined, some .cancelledStep, none⟩, ctx, [])
  else
    match step.skipPolicy with
    | some sp =>
      if sp.condition ctx then
        (⟨step.id, .skipped, sp.defaultOutput, none, none⟩,
          ctx.setStepOutput step.id sp.defaultOutput,
          [.stepSkip, .commit step.id sp.defaultOutput])
      else
        executeStepCore globalBefore globalAfter cancelSleep step ctx body input
    | none => executeStepCore globalBefore globalAfter cancelSleep step ctx body input

/-- Body invocations recorded in a trace (attempt numbers, in order). -/
def attemptsOf (tr : List TraceEv) : List Nat :=
  tr.filterMap (fun e => match e with | .invokeBody a => some a | _ => none)

/-- Sleep durations recorded in a trace, in order. -/
def sleepsOf (tr : List TraceEv) : List Nat :=
  tr.filterMap (fun e => match e with | .sleep d => some d | _ => none)

/-- Number of body invocations recorded in a trace. -/
def invokeCount (tr : List TraceEv) : Nat :=
  (attemptsOf tr).length

/-! ## DAG builder and scheduler (src/unnamed/part_003, scheduler module) -/

/-- Model of `DAGNode`.  The degree fields are JS numbers; `Int` because the
Kahn counters derived from them are decremented without a lower bound. -/
structure DAGNode where
  step : StepDefinition
  inDegree : Int
  outDegree : Int

/-- Model of `DAG`: node map and edge map (stepId to its dependency list),
both in insertion order. -/
structure DAG where
  nodes : List (String × DAGNode)
  edges : List (String × List String)

/-- Model of `ValidationResult`. -/
structure ValidationResult where
  valid : Bool
  errors : Option (List String) := none
deriving DecidableEq

/-- Dependency list of a node id as the scheduler reads it:
`dag.edges.get(id) || []`. -/
def depsOf (dag : DAG) (id : String) : List String :=
  (lookupA dag.edges id).getD []

/-- Node-id list of a DAG, in insertion order. -/
def nodeIds (dag : DAG) : List String :=
  dag.nodes.map Prod.fst

/-- First pass of `DAGBuilder.build`: `nodes.set(step.id, {step, 0, 0})` and
`edges.set(step.id, step.dependencies || [])` for every step, in order. -/
def buildInit (steps : List StepDefinition) :
    List (String × DAGNode) × List (String × List String) :=
  steps.foldl
    (fun (acc : List (String × DAGNode) × List (String × List String)) s =>
      (setA acc.1 s.id ⟨s, 0, 0⟩, setA acc.2 s.id (s.dependencies.getD [])))
    ([], [])

/-- Out-degree bumps of one step's dependency list in `DAGBuilder.build`:
`depNode.outDegree++` for each dependency that resolves to a node. -/
def applyOut (ns : List (String × DAGNode)) (ds : List String) :
    List (String × DAGNode) :=
  ds.foldl (fun ns2 dep => modifyA ns2 dep
    (fun n => { n with outDegree := n.outDegree + 1 })) ns

/-- Second pass of `DAGBuilder.build`: set `node.inDegree = deps.length` and
bump the out-degrees of the dependencies, for every step in order. -/
def buildDegrees (steps : List StepDefinition) (ns : List (String × DAGNode)) :
    List (String × DAGNode) :=
  steps.foldl
    (fun ns s =>
      applyOut (modifyA ns s.id
        (fun n => { n with inDegree := ((s.dependencies.getD []).length : Int) }))
        (s.dependencies.getD []))
    ns

/-- Model of `DAGBuilder.build`: create all nodes and edges, then compute
in-degrees (the dependency count) and out-degrees in a second pass. -/
def build (d : WorkflowDefinition) : DAG :=
  ⟨buildDegrees d.steps (buildInit d.steps).1, (buildInit d.steps).2⟩

/-- Inner loop of one Kahn iteration: for every edge-map entry `(id, deps)`
with `current ∈ deps`, decrement the tracked in-degree of `id`, collecting
the ids whose degree reaches exactly 0 (they are pushed onto the queue, in
edge-map order).  Entries whose id has no tracked degree are skipped (in JS
the decrement would produce `NaN`, which never equals 0 and never enqueues;
the two behaviours agree on everything the algorithm observes). -/
def relax (edges : List (String × List String)) (current : String)
    (inDeg : List (String × Int)) : List (String × Int) × List String :=
  match edges with
  | [] => (inDeg, [])
  | (id, ds) :: rest =>
    if current ∈ ds then
      match lookupA inDeg id with
      | some d =>
        let r := relax rest current (setA inDeg id (d - 1))
        (r.1, (if d - 1 = 0 then [id] else []) ++ r.2)
      | none => relax rest current inDeg
    else relax rest current inDeg

/-- Fuel-indexed model of the Kahn `while (queue.length > 0)` loop shared by
`DAGBuilder.detectCycle` and `Scheduler.topologicalSort`.  Each iteration
pops the queue head, appends it to the output, and relaxes its successors.
The callers pass fuel `nodes.length + 1`; every node is enqueued at most
once, so the fuel is never exhausted with a non-empty queue (this is proved
for DAGs built from definitions, which is how the engine always calls it). -/
def kahnLoop (edges : List (String × List String)) :
    Nat → List (String × Int) → List String → List String →
    List (String × Int) × List String × List String
  | 0, inDeg, queue, sorted => (inDeg, queue, sorted)
  | _ + 1, inDeg, [], sorted => (inDeg, [], sorted)
  | fuel + 1, inDeg, current :: rest, sorted =>
    let r := relax edges current inDeg
    kahnLoop edges fuel r.1 (rest ++ r.2) (sorted ++ [current])

/-- Kahn's algorithm as run by both `detectCycle` and `topologicalSort`:
seed the queue with the zero-in-degree nodes in node order, then drain. -/
def kahnSort (dag : DAG) : List String :=
  let inDeg := dag.nodes.map (fun p => (p.1, p.2.inDegree))
  let queue := (dag.nodes.filter (fun p => p.2.inDegree = 0)).map Prod.fst
  (kahnLoop dag.edges (dag.nodes.length + 1) inDeg queue []).2.2

/-- Loop of `DAGBuilder.findCycleFromNode`: starting from `start`, repeatedly
follow a dependency that is in the cycle set and unvisited; when none
remains, close the path back to `start` or to any visited node if possible.
Fuel `inCycle.length + 1` suffices since each iteration visits a fresh
member of `inCycle`. -/
def cycleLoop (dag : DAG) (start : String) (inCycle : List String) :
    Nat → String → List String → List String → List String
  | 0, _, _, path => path
  | fuel + 1, current, visited, path =>
    let ds := depsOf dag current
    match ds.find? (fun d => d ∈ inCycle ∧ d ∉ visited) with
    | some nxt => cycleLoop dag start inCycle fuel nxt (visited ++ [nxt]) (path ++ [nxt])
    | none =>
      if start ∈ ds then path ++ [start]
      else
        match ds.find? (fun d => d ∈ visited) with
        | some b => path ++ [b]
        | none => path

/-- Model of `DAGBuilder.findCyclePath`: the unsorted nodes form the cycle
set; walk a cycle from its first member. -/
def findCyclePath (dag : DAG) (sorted : List String) : List String :=
  let inCycle := (nodeIds dag).filter (fun id => id ∉ sorted)
  match inCycle with
  | [] => []
  | start :: _ => cycleLoop dag start inCycle (inCycle.length + 1) start [start] [start]

/-- Model of `DAGBuilder.detectCycle`: run Kahn; if the output misses nodes,
return a representative cycle path, else `none`. -/
def detectCycle (dag : DAG) : Option (List String) :=
  let sorted := kahnSort dag
  if sorted.length ≠ dag.nodes.length then some (findCyclePath dag sorted) else none

/-- Model of `DAGBuilder.getReadySteps`: the steps whose id is not completed
and whose dependencies are all completed, in node order.  The JS completed
`Set` is modelled by a list queried by membership. -/
def getReadySteps (dag : DAG) (completedSteps : List String) : List StepDefinition :=
  (dag.nodes.filter (fun p =>
    decide (p.1 ∉ completedSteps) && (depsOf dag p.1).all (fun d => decide (d ∈ completedSteps)))).map
    (fun p => p.2.step)

/-- Error messages produced by the missing-dependency check in
`Scheduler.validate`. -/
def missingDepErrors (dag : DAG) : List String :=
  dag.edges.flatMap (fun e =>
    (e.2.filter (fun depId => (lookupA dag.nodes depId).isNone)).map
      (fun depId => "步骤 \"" ++ e.1 ++ "\" 依赖的步骤 \"" ++ depId ++ "\" 不存在"))

/-- Model of `Scheduler.validate`: reject empty workflows, then missing
dependencies, then run cycle detection, throwing `CyclicDependencyError`
(modelled as `Except.error` carrying the cycle path) when a cycle is found. -/
def validate (dag : DAG) : Except (List String) ValidationResult :=
  if dag.nodes.length = 0 then .ok ⟨false, some ["工作流定义不能为空"]⟩
  else
    let errors := missingDepErrors dag
    if errors.length > 0 then .ok ⟨false, some errors⟩
    else
      match detectCycle dag with
      | some cyclePath => .error cyclePath
      | none => .ok ⟨true, none⟩

/-- Model of `Scheduler.topologicalSort`: run Kahn; on an incomplete output
throw `CyclicDependencyError` with the path recovered by `detectCycle`
(re-running Kahn inside `detectCycle` is deterministic, so the re-run is
shared here). -/
def topologicalSort (dag : DAG) : Except (List String) (List String) :=
  let sorted := kahnSort dag
  if sorted.length ≠ dag.nodes.length then .error ((detectCycle dag).getD [])
  else .ok sorted

/-- Dependency edge relation of a DAG: `depRel dag a b` holds when `a` is
listed among the dependencies of `b`. -/
def depRel (dag : DAG) (a b : String) : Prop :=
  a ∈ depsOf dag b

/-- A DAG contains a cycle when some node depends transitively on itself. -/
def HasCycle (dag : DAG) : Prop :=
  ∃ x, Relation.TransGen (depRel dag) x x

/-- Structural well-formedness of a workflow definition: non-empty, unique
step ids, duplicate-free dependency lists, and every dependency referring to
an existing step. -/
def WF (d : WorkflowDefinition) : Prop :=
  d.steps ≠ [] ∧ (d.steps.map StepDefinition.id).Nodup ∧
    ∀ s ∈ d.steps, (s.dependencies.getD []).Nodup ∧
      ∀ dep ∈ s.dependencies.getD [], dep ∈ d.steps.map StepDefinition.id

/-- Element `a` occurs strictly before element `b` in the list. -/
def IdxBefore (l : List String) (a b : String) : Prop :=
  ∃ i j, ∃ hi : i < l.length, ∃ hj : j < l.length,
    i < j ∧ l.get ⟨i, hi⟩ = a ∧ l.get ⟨j, hj⟩ = b

/-- Well-formedness of a `DAG` value as produced by `DAGBuilder.build` from a
well-formed definition: nonempty, duplicate-free node keys, edge keys equal to
node keys, each dependency list duplicate-free and pointing at existing nodes,
and each stored in-degree equal to the node's dependency count. -/
def DWF (dag : DAG) : Prop :=
  dag.nodes ≠ [] ∧
    (nodeIds dag).Nodup ∧
    dag.edges.map Prod.fst = nodeIds dag ∧
    (∀ p ∈ dag.edges, p.2.Nodup ∧ p.2 ⊆ nodeIds dag) ∧
    ∀ p ∈ dag.nodes, p.2.inDegree = ((depsOf dag p.1).length : Int)

/-- The dependencies of `id` not yet placed in the partial Kahn output. -/
def pendingDeps (dag : DAG) (sorted : List String) (id : String) : List String :=
  (depsOf dag id).filter (fun a => decide (a ∉ sorted))

/-- Loop invariant of Kahn's algorithm as implemented by `detectCycle` and
`topologicalSort`: the output and queue never repeat a node and stay inside the
node set, the tracked in-degree of every node counts its dependencies not yet
output, the queue holds exactly the unoutput nodes with no pending
dependencies, and every output node's dependencies occur strictly earlier in
the output. -/
def KInv (dag : DAG) (inDeg : List (String × Int)) (queue sorted : List String) : Prop :=
  (sorted ++ queue).Nodup ∧
    sorted ⊆ nodeIds dag ∧
    queue ⊆ nodeIds dag ∧
    (∀ id ∈ nodeIds dag, lookupA inDeg id = some ((pendingDeps dag sorted id).length : Int)) ∧
    (∀ id ∈ nodeIds dag, id ∉ sorted → (id ∈ queue ↔ pendingDeps dag sorted id = [])) ∧
    ∀ i, ∀ hi : i < sorted.length, ∀ a ∈ depsOf dag (sorted.get ⟨i, hi⟩), a ∈ sorted.take i

/-! ## Wait manager (src/unnamed/part_004, `WaitManager`)

The wait manager owns per-step wait items with optional timeout timers, and
resolves each wait through exactly one of resume / cancel / timeout.
`setTimeout` handles are modelled by freshly allocated numeric ids recorded
in `timers`; `clearTimeout` removes a handle from `timers`; a timer callback
can only run while its handle is still in `timers` (firing consumes it).
Wall-clock quantities (`Date.now()`, `elapsedTime`) are threaded as an
abstract `now` parameter where the data model stores them. -/

/-- Model of the `WaitType` enum. -/
inductive WaitType where
  | ui
  | tool
  | signal
deriving DecidableEq

/-- Model of `TimeoutStrategy`. -/
inductive TimeoutStrategy where
  | error
  | default
  | ignore
deriving DecidableEq

/-- Model of `TimeoutConfig`.  `timeout` is an `Int` because the source
compares it against 0.  A missing `defaultValue` is JS `undefined`. -/
structure TimeoutConfig where
  timeout : Int
  strategy : TimeoutStrategy
  defaultValue : Value := .vundefined

/-- Model of `WaitingInfo`. -/
structure WaitingInfo where
  type : WaitType
  targetId : String
  startTime : Nat
  timeout : Option Int := none
  data : Value := .vundefined

/-- Model of `WaitItem`.  `timeoutId` is the handle of the armed
`setTimeout`, when one exists. -/
structure WaitItem where
  stepId : String
  waitingInfo : WaitingInfo
  timeoutConfig : Option TimeoutConfig := none
  timeoutId : Option Nat := none

/-- Model of `StepState` as the wait manager maintains it. -/
structure WMStepState where
  stepId : String
  status : StepStatus
  retryCount : Nat
  startTime : Option Nat := none
  waitingFor : Option WaitingInfo := none

/-- How a wait's promise was settled. -/
inductive WaitOutcome where
  | resolved (v : Value)
  | rejectedTimeout (stepId : String) (timeout : Int)
  | rejectedCancel (reason : String)

/-- Wait event kinds emitted by the manager. -/
inductive WaitEvKind where
  | waitStart
  | waitTimeout
  | waitResume
  | waitCancel
deriving DecidableEq

/-- State of a `WaitManager` instance: the wait-item and step-state maps,
the set of armed timer handles with the allocator for fresh handles, the
events emitted so far, and the settled promises. -/
structure WMState where
  waitingItems : List (String × WaitItem) := []
  stepStates : List (String × WMStepState) := []
  timers : List Nat := []
  nextTimerId : Nat := 0
  events : List (WaitEvKind × String) := []
  outcomes : List (String × WaitOutcome) := []

/-- Model of `WaitManager.clearWaitItem`: clear the item's timer (if any),
delete the map entry, and erase `waitingFor` from the step's runtime state. -/
def clearWaitItem (s : WMState) (stepId : String) : WMState :=
  match lookupA s.waitingItems stepId with
  | none => s
  | some item =>
    { s with
      timers := match item.timeoutId with
        | some h => s.timers.erase h
        | none => s.timers
      waitingItems := eraseA s.waitingItems stepId
      stepStates := match lookupA s.stepStates stepId with
        | some st => setA s.stepStates stepId { st with waitingFor := none }
        | none => s.stepStates }

/-- Model of `WaitManager.startWaitWithConfig`: record the waiting step
state, arm a timer when a positive timeout is configured, store the wait
item, and emit `WaitStart`. -/
def startWaitWithConfig (s : WMState) (stepId : String) (type : WaitType)
    (targetId : String) (timeoutConfig : Option TimeoutConfig) (data : Value)
    (now : Nat) : WMState :=
  let waitingInfo : WaitingInfo :=
    ⟨type, targetId, now, timeoutConfig.map (fun c => c.timeout), data⟩
  let stepStates := setA s.stepStates stepId
    ⟨stepId, .waitingInput, 0, some now, some waitingInfo⟩
  let armed : Bool := match timeoutConfig with
    | some c => decide (c.timeout > 0)
    | none => false
  let handle := if armed then some s.nextTimerId else none
  let item : WaitItem := ⟨stepId, waitingInfo, timeoutConfig, handle⟩
  { s with
    stepStates := stepStates
    timers := if armed then s.timers ++ [s.nextTimerId] else s.timers
    nextTimerId := if armed then s.nextTimerId + 1 else s.nextTimerId
    waitingItems := setA s.waitingItems stepId item
    events := s.events ++ [(.waitStart, stepId)] }

/-- Model of `WaitManager.resumeWait`: when a wait exists for the step, emit
`WaitResume`, clear the item (map entry + timer + `waitingFor`), resolve the
promise, and return `true`; otherwise return `false` without changes. -/
def resumeWait (s : WMState) (stepId : String) (result : Value) : Bool × WMState :=
  match lookupA s.waitingItems stepId with
  | none => (false, s)
  | some _ =>
    let s1 := { s with events := s.events ++ [(.waitResume, stepId)] }
    let s2 := clearWaitItem s1 stepId
    (true, { s2 with outcomes := s2.outcomes ++ [(stepId, .resolved result)] })

/-- Model of `WaitManager.cancelWait`: symmetric to resume, rejecting the
promise with the cancellation reason and emitting `WaitCancel`. -/
def cancelWait (s : WMState) (stepId : String) (reason : String) : Bool × WMState :=
  match lookupA s.waitingItems stepId with
  | none => (false, s)
  | some _ =>
    let s1 := { s with events := s.events ++ [(.waitCancel, stepId)] }
    let s2 := clearWaitItem s1 stepId
    (true, { s2 with outcomes := s2.outcomes ++ [(stepId, .rejectedCancel reason)] })

/-- Model of `WaitManager.handleTimeout`: clear the item, then settle by
strategy; `ignore` re-registers the item and re-arms a fresh timer via
`restartWaitTimer`. -/
def handleTimeout (s : WMState) (stepId : String) (item : WaitItem) : WMState :=
  let strategy := (item.timeoutConfig.map (fun c => c.strategy)).getD .error
  let s1 := clearWaitItem s stepId
  match strategy with
  | .error =>
    { s1 with outcomes := s1.outcomes ++
        [(stepId, .rejectedTimeout stepId ((item.timeoutConfig.map (fun c => c.timeout)).getD 0))] }
  | .default =>
    { s1 with outcomes := s1.outcomes ++
        [(stepId, .resolved ((item.timeoutConfig.map (fun c => c.defaultValue)).getD .vundefined))] }
  | .ignore =>
    match item.timeoutConfig with
    | some c =>
      if c.timeout ≤ 0 then s1
      else
        { s1 with
          waitingItems := setA s1.waitingItems stepId { item with timeoutId := some s1.nextTimerId }
          timers := s1.timers ++ [s1.nextTimerId]
          nextTimerId := s1.nextTimerId + 1 }
    | none => s1

/-- Model of the `setTimeout` callback armed by `startWaitWithConfig` firing
for the current wait of `stepId`: the callback runs only if its handle is
still armed, consumes the handle, checks the item is still registered, emits
`WaitTimeout` and runs `handleTimeout`. -/
def fireTimeout (s : WMState) (stepId : String) : WMState :=
  match lookupA s.waitingItems stepId with
  | none => s
  | some item =>
    match item.timeoutId with
    | none => s
    | some h =>
      if h ∈ s.timers then
        let s1 := { s with
          timers := s.timers.erase h
          events := s.events ++ [(.waitTimeout, stepId)] }
        handleTimeout s1 stepId item
      else s

/-- Model of `WaitManager.isWaiting`. -/
def isWaiting (s : WMState) (stepId : String) : Bool :=
  (lookupA s.waitingItems stepId).isSome

/-! ## Schema validator and tool invoker
(src/packages/engine/src/tools/index.ts) -/

/-- Model of the constrained `JSONSchema` shape.  The `required` and
`properties` members only influence validation for `type: object` and
`items` only for `type: array`, which is what the constructors carry
(`none`/`[]` model the absent TS fields). -/
inductive Schema where
  | sstring
  | snumber
  | sboolean
  | sobject (required : Option (List String)) (properties : Option (List (String × Schema)))
  | sarray (items : Option Schema)

/-- The `type` tag string of a schema. -/
def Schema.typeName : Schema → String
  | .sstring => "string"
  | .snumber => "number"
  | .sboolean => "boolean"
  | .sobject _ _ => "object"
  | .sarray _ => "array"

/-- Model of `getValueType` (JS `typeof` refined with null/array checks). -/
def getValueType : Value → String
  | .vundefined => "undefined"
  | .vnull => "null"
  | .vbool _ => "boolean"
  | .vnum _ => "number"
  | .vstr _ => "string"
  | .varr _ => "array"
  | .vobj _ => "object"

/-- Display label of a validation path: `path || 'root'`. -/
def pathLabel (path : String) : String :=
  if path = "" then "root" else path

/-- Required-field errors for an object value (the `schema.required` loop of
`validateSchema`). -/
def requiredErrors (fields : List (String × Value)) (required : List String)
    (currentPath : String) : List String :=
  (required.filter (fun f => (lookupA fields f).isNone)).map
    (fun f => currentPath ++ ": 缺少必需字段 \"" ++ f ++ "\"")

mutual

/-- Model of `validateSchema`, returning the error list (the source's
`SchemaValidationResult.valid` is `errors.length === 0`).  A type-tag
mismatch returns a single error immediately; objects additionally check
required fields and recursively validate the properties present in both the
schema and the value; arrays recursively validate every element against
`items`. -/
def validateSchema (value : Value) (schema : Schema) (path : String) : List String :=
  let currentPath := pathLabel path
  if getValueType value = schema.typeName then
    match value, schema with
    | .vobj fields, .sobject required properties =>
      requiredErrors fields (required.getD []) currentPath ++
        (match properties with
         | some props => validateProps fields props currentPath
         | none => [])
    | .varr elems, .sarray (some items) => validateItems elems items currentPath 0
    | _, _ => []
  else
    [currentPath ++ ": 期望类型 " ++ schema.typeName ++ "，实际类型 " ++ getValueType value]
termination_by (sizeOf schema, 0)

/-- Property loop of `validateSchema` for objects: for each schema property
present in the value, validate it at path `currentPath ++ "." ++ name`. -/
def validateProps (fields : List (String × Value)) (props : List (String × Schema))
    (currentPath : String) : List String :=
  match props with
  | [] => []
  | (propName, propSchema) :: rest =>
    (match lookupA fields propName with
     | some pv => validateSchema pv propSchema (currentPath ++ "." ++ propName)
     | none => []) ++ validateProps fields rest currentPath
termination_by (sizeOf props, 0)

/-- Element loop of `validateSchema` for arrays: validate element `i` at
path `currentPath ++ "[i]"`. -/
def validateItems (elems : List Value) (items : Schema) (currentPath : String)
    (i : Nat) : List String :=
  match elems with
  | [] => []
  | e :: rest =>
    validateSchema e items (currentPath ++ "[" ++ toString i ++ "]") ++
      validateItems rest items currentPath (i + 1)
termination_by (sizeOf items, elems.length + 1)

end

/-- Model of the `ToolMode` enum. -/
inductive ToolMode where
  | sync
  | async
deriving DecidableEq

/-- Model of `ToolMeta` (fields consumed by `ToolInvoker.invoke`). -/
structure ToolMeta where
  id : String
  name : String := ""
  mode : ToolMode
  timeout : Option Int := none
  inputSchema : Option Schema := none

/-- Model of `ToolRegistration`: metadata plus the executor, which may
mutate the context and may throw. -/
structure ToolRegistration where
  meta : ToolMeta
  executor : Value → Context → Context × Except String Value

/-- Model of the error values a `ToolCallResult` can carry. -/
inductive ToolError where
  | toolNotFound (toolId : String)
  | schemaValidation (message : String) (validationErrors : List String)
  | timeout (stepId : String) (ms : Int)
  | toolExecution (toolId : String) (message : String)

/-- Model of `ToolCallResult` (the wall-clock `duration` field is omitted). -/
structure ToolCallResult where
  success : Bool
  toolId : String
  result : Option Value := none
  error : Option ToolError := none

/-- Tool event kinds. -/
inductive ToolEvKind where
  | toolInvoke
  | toolComplete
  | toolFailed
deriving DecidableEq

/-- A tool event as emitted by `ToolInvoker.emitToolEvent`, with the payload
fields the claims inspect. -/
structure ToolEv where
  kind : ToolEvKind
  toolId : String
  validationErrors : List String := []

/-- Outcome of a call to `ToolInvoker.invoke`: the settled result (`none`
while an async call is pending on external resolution), the context, the
events emitted during the call, and whether the executor ran. -/
structure InvokeOutcome where
  result : Option ToolCallResult
  ctx : Context
  events : List ToolEv
  executorRan : Bool

/-- Model of `ToolInvoker.invoke` steps 1-4: registry lookup, input-schema
validation (returning a `SchemaValidationError` and emitting `ToolFailed`
without ever emitting `ToolInvoke` or running the executor), then
`ToolInvoke` and dispatch by mode.  The sync path runs the executor and
emits `ToolComplete`/`ToolFailed`; the timeout race of `executeWithTimeout`
is a wall-clock effect and is not modelled (the executor outcome already
ranges over every possible settled value).  The async path registers a
pending call and returns an unsettled result. -/
def invoke (registry : List (String × ToolRegistration)) (toolId : String)
    (params : Value) (ctx : Context) : InvokeOutcome :=
  match lookupA registry toolId with
  | none =>
    ⟨some ⟨false, toolId, none, some (.toolNotFound toolId)⟩, ctx, [], false⟩
  | some registration =>
    let meta := registration.meta
    let afterSchema : Option (List String) :=
      match meta.inputSchema with
      | some schema =>
        let errs := validateSchema params schema ""
        if errs.length = 0 then none else some errs
      | none => none
    match afterSchema with
    | some errs =>
      ⟨some ⟨false, toolId, none,
          some (.schemaValidation ("工具 " ++ toolId ++ " 输入参数验证失败") errs)⟩,
        ctx, [⟨.toolFailed, toolId, errs⟩], false⟩
    | none =>
      match meta.mode with
      | .sync =>
        let r := registration.executor params ctx
        match r.2 with
        | .ok v =>
          ⟨some ⟨true, toolId, some v, none⟩, r.1,
            [⟨.toolInvoke, toolId, []⟩, ⟨.toolComplete, toolId, []⟩], true⟩
        | .error msg =>
          ⟨some ⟨false, toolId, none, some (.toolExecution toolId msg)⟩, r.1,
            [⟨.toolInvoke, toolId, []⟩, ⟨.toolFailed, toolId, []⟩], true⟩
      | .async =>
        ⟨none, ctx, [⟨.toolInvoke, toolId, []⟩], false⟩

/-! # Theorems -/

/-! ## C1: event-bus exception isolation -/

/-- C1, counterexample.  Claimed: an exception raised by one subscriber does
not prevent the remaining subscribers from receiving the event and does not
propagate out of `emit`.  With two subscribers for the event where the first
throws, the dispatch loop of `EventEmitter.emit` (which has no `try`/`catch`)
invokes only the first subscriber and the exception escapes to the caller:
the second subscriber (id 1) never receives the event and the emit call
aborts with the exception. -/
theorem c1_counterexample :
    let ls : List Subscriber :=
      [⟨0, fun _ => .error "boom"⟩, ⟨1, fun _ => .ok ()⟩]
    let ev : BusEvent := ⟨"workflow:start", "w1", "i1", .vundefined⟩
    (emitOn ls ev).1 = [0] ∧ (emitOn ls ev).2 = some "boom" ∧
      1 ∉ (emitOn ls ev).1 := by
  refine ⟨rfl, rfl, ?_⟩
  simp [emitOn]

/-- C1, amended.  For every event and subscriber list, if every subscriber
before `s` handles the event normally and `s` throws, then `emit` invokes
exactly the subscribers up to and including `s` in registration order —
subscribers registered after `s` do not receive the event — and the
exception propagates to the caller of `emit`. -/
theorem c1_emit_exception_stops_dispatch
    (pre : List Subscriber) (s : Subscriber) (post : List Subscriber)
    (e : BusEvent) (msg : String)
    (hpre : ∀ x ∈ pre, x.handler e = .ok ())
    (hs : s.handler e = .error msg) :
    emitOn (pre ++ s :: post) e = (pre.map Subscriber.id ++ [s.id], some msg) := by
  induction pre with
  | nil => simp [emitOn, hs]
  | cons x xs ih =>
    have hx : x.handler e = .ok () := hpre x (by simp)
    have ihx := ih (fun y hy => hpre y (by simp [hy]))
    simp [emitOn, hx, ihx]

/-- C1, witness for the amended theorem at a concrete subscriber list. -/
theorem c1_emit_exception_stops_dispatch_witness :
    emitOn
      [⟨0, fun _ => .ok ()⟩, ⟨1, fun _ => .error "crash"⟩, ⟨2, fun _ => .ok ()⟩]
      ⟨"step:start", "w", "i", .vundefined⟩ = ([0, 1], some "crash") := by
  have h := c1_emit_exception_stops_dispatch
    [⟨0, fun _ => .ok ()⟩] ⟨1, fun _ => .error "crash"⟩ [⟨2, fun _ => .ok ()⟩]
    ⟨"step:start", "w", "i", .vundefined⟩ "crash" (by intro x hx; simp at hx; simp [hx]) rfl
  simpa using h

/-! ## Retry-loop structure lemmas (shared by C2, C3, C4, C5, C10) -/

/-- Helper: `sleepsOf` distributes over trace concatenation. -/
theorem sleepsOf_append (a b : List TraceEv) :
    sleepsOf (a ++ b) = sleepsOf a ++ sleepsOf b := by
  simp [sleepsOf]

/-- Helper: `attemptsOf` distributes over trace concatenation. -/
theorem attemptsOf_append (a b : List TraceEv) :
    attemptsOf (a ++ b) = attemptsOf a ++ attemptsOf b := by
  simp [attemptsOf]

/-- Unfolding of `retryLoop` when the retry budget is exhausted
(`canRetry() = false`), for any fuel. -/
theorem retryLoop_exhausted (stepId : String) (body : ExecBody) (cs : Option Nat)
    (p : RetryPolicy) (input : Value) (fuel count : Nat) (ctx : Context)
    (lastError : ExecError) (hc : ¬ count < p.maxRetries) :
    retryLoop stepId body cs p input fuel count ctx lastError =
      (⟨stepId, .failed, .vundefined, some lastError, some count⟩, ctx,
        [.stepFailedExhausted count p.maxRetries]) := by
  rw [retryLoop.eq_def]
  simp [hc]

/-- Unfolding of `retryLoop` at zero fuel: the result coincides with the
exhausted branch (this state is unreachable from `executeWithRetry`, which
supplies fuel `p.maxRetries`). -/
theorem retryLoop_zero (stepId : String) (body : ExecBody) (cs : Option Nat)
    (p : RetryPolicy) (input : Value) (count : Nat) (ctx : Context)
    (lastError : ExecError) :
    retryLoop stepId body cs p input 0 count ctx lastError =
      (⟨stepId, .failed, .vundefined, some lastError, some count⟩, ctx,
        [.stepFailedExhausted count p.maxRetries]) := by
  rw [retryLoop.eq_def]
  by_cases hc : count < p.maxRetries <;> simp [hc]

/-- Unfolding of `retryLoop` when the cancellation flag is visible at the
loop-top check. -/
theorem retryLoop_cancelled (stepId : String) (body : ExecBody) (cs : Option Nat)
    (p : RetryPolicy) (input : Value) (f count : Nat) (ctx : Context)
    (lastError : ExecError) (hc : count < p.maxRetries)
    (hv : cancelVisible cs count = true) :
    retryLoop stepId body cs p input (f + 1) count ctx lastError =
      (⟨stepId, .failed, .vundefined, some .cancelledStep, some count⟩, ctx, []) := by
  rw [retryLoop.eq_def]
  simp [hc, hv]

/-- Unfolding of one successful retry iteration. -/
theorem retryLoop_step_ok (stepId : String) (body : ExecBody) (cs : Option Nat)
    (p : RetryPolicy) (input : Value) (f count : Nat) (ctx ctx' : Context)
    (lastError : ExecError) (v : Value) (hc : count < p.maxRetries)
    (hv : cancelVisible cs count = false)
    (hbody : body (count + 1 + 1) input ctx = (ctx', .ok v)) :
    retryLoop stepId body cs p input (f + 1) count ctx lastError =
      (⟨stepId, .success, v, none, some (count + 1)⟩, ctx',
        [.sleep (getNextRetryInterval p count), .stepRetry (count + 1 + 1) p.maxRetries,
          .invokeBody (count + 1 + 1), .stepComplete (some (count + 1))]) := by
  rw [retryLoop.eq_def]
  simp [hc, hv, executeSingleAttempt, hbody]

/-- Unfolding of one failed retry iteration. -/
theorem retryLoop_step_err (stepId : String) (body : ExecBody) (cs : Option Nat)
    (p : RetryPolicy) (input : Value) (f count : Nat) (ctx ctx' : Context)
    (lastError : ExecError) (msg : String) (hc : count < p.maxRetries)
    (hv : cancelVisible cs count = false)
    (hbody : body (count + 1 + 1) input ctx = (ctx', .error msg)) :
    retryLoop stepId body cs p input (f + 1) count ctx lastError =
      ((retryLoop stepId body cs p input f (count + 1) ctx' (.stepExecution msg stepId)).1,
        (retryLoop stepId body cs p input f (count + 1) ctx' (.stepExecution msg stepId)).2.1,
        .sleep (getNextRetryInterval p count) :: .stepRetry (count + 1 + 1) p.maxRetries ::
          .invokeBody (count + 1 + 1) ::
          (retryLoop stepId body cs p input f (count + 1) ctx' (.stepExecution msg stepId)).2.2) := by
  rw [retryLoop.eq_def]
  simp [hc, hv, executeSingleAttempt, hbody]

/-- Structure of the retry loop's trace and result: there is some number `n`
of completed loop iterations, each contributing exactly one sleep (of the
interval computed at the current retry count) followed by one body
invocation at the matching attempt number; `StepComplete` appears exactly
when the loop result is successful; and the loop never emits any other event
kind. -/
theorem retryLoop_shape (stepId : String) (body : ExecBody) (cs : Option Nat)
    (p : RetryPolicy) (input : Value) :
    ∀ fuel count ctx lastError,
    ∃ n,
      sleepsOf (retryLoop stepId body cs p input fuel count ctx lastError).2.2 =
        (List.range' count n).map (getNextRetryInterval p) ∧
      attemptsOf (retryLoop stepId body cs p input fuel count ctx lastError).2.2 =
        List.range' (count + 2) n ∧
      ((∃ rc, TraceEv.stepComplete rc ∈
          (retryLoop stepId body cs p input fuel count ctx lastError).2.2) ↔
        (retryLoop stepId body cs p input fuel count ctx lastError).1.status = .success) ∧
      (∀ id v, TraceEv.commit id v ∉
        (retryLoop stepId body cs p input fuel count ctx lastError).2.2) ∧
      TraceEv.runAfterHooks ∉ (retryLoop stepId body cs p input fuel count ctx lastError).2.2 ∧
      (∀ a, TraceEv.stepStart a ∉
        (retryLoop stepId body cs p input fuel count ctx lastError).2.2) ∧
      TraceEv.stepFailedBeforeHook ∉
        (retryLoop stepId body cs p input fuel count ctx lastError).2.2 ∧
      TraceEv.stepSkip ∉ (retryLoop stepId body cs p input fuel count ctx lastError).2.2 := by
  intro fuel
  induction fuel with
  | zero =>
    intro count ctx lastError
    rw [retryLoop_zero stepId body cs p input count ctx lastError]
    refine ⟨0, ?_⟩
    simp [sleepsOf, attemptsOf]
  | succ f ih =>
    intro count ctx lastError
    by_cases hc : count < p.maxRetries
    · by_cases hcan : cancelVisible cs count = true
      · rw [retryLoop_cancelled stepId body cs p input f count ctx lastError hc hcan]
        refine ⟨0, ?_⟩
        simp [sleepsOf, attemptsOf]
      · simp only [Bool.not_eq_true] at hcan
        rcases hbody : body (count + 1 + 1) input ctx with ⟨ctx', out⟩
        cases out with
        | ok v =>
          rw [retryLoop_step_ok stepId body cs p input f count ctx ctx' lastError v hc hcan hbody]
          refine ⟨1, ?_⟩
          simp [sleepsOf, attemptsOf]
        | error msg =>
          rw [retryLoop_step_err stepId body cs p input f count ctx ctx' lastError msg hc hcan hbody]
          obtain ⟨n, hs, ha, hcm, hnc, hna, hnss, hnb, hnsk⟩ :=
            ih (count + 1) ctx' (.stepExecution msg stepId)
          refine ⟨n + 1, ?_, ?_, ?_, ?_, ?_, ?_, ?_, ?_⟩
          · simp only [sleepsOf, List.filterMap_cons] at hs ⊢
            rw [hs, List.range'_succ]
            simp
          · simp only [attemptsOf, List.filterMap_cons] at ha ⊢
            rw [ha, List.range'_succ]
          · simp only [List.mem_cons, reduceCtorEq, false_or] at hcm ⊢
            exact hcm
          · intro id v
            have := hnc id v
            simp only [List.mem_cons, reduceCtorEq, false_or]
            exact this
          · simp only [List.mem_cons, reduceCtorEq, false_or]
            exact hna
          · intro a
            have := hnss a
            simp only [List.mem_cons, reduceCtorEq, false_or]
            exact this
          · simp only [List.mem_cons, reduceCtorEq, false_or]
            exact hnb
          · simp only [List.mem_cons, reduceCtorEq, false_or]
            exact hnsk
    · rw [retryLoop_exhausted stepId body cs p input (f + 1) count ctx lastError hc]
      refine ⟨0, ?_⟩
      simp [sleepsOf, attemptsOf]

/-! ## C2: StepStart / StepComplete emission -/

/-- C2, counterexample.  Claimed: for every step executed by the step
executor, with or without a retry policy, `StepStart(attempt=1)` is emitted
before the first body invocation and `StepComplete` on body success.  A step
with no retry policy takes the early-return path of
`Executor.executeWithRetry` (`if (!retryPolicy) return
this.executeSingleAttempt(...)`), which emits no event at all: on a
successful pass-through body the whole trace is one body invocation, with no
`StepStart` and no `StepComplete`. -/
theorem c2_counterexample :
    (executeWithRetry "s1" (fun _ _ c => (c, .ok (.vnum 1))) none .vundefined none
        ⟨[], []⟩).2.2 = [TraceEv.invokeBody 1] ∧
      (executeWithRetry "s1" (fun _ _ c => (c, .ok (.vnum 1))) none .vundefined none
        ⟨[], []⟩).1.status = .success := by
  exact ⟨rfl, rfl⟩

/-- C2, amended.  When the step has a retry policy, `executeWithRetry` emits
`StepStart` with attempt 1 strictly before the first body invocation (they
are the first two trace entries, in that order) and emits `StepComplete`
whenever the result is successful.  When the step has no retry policy, the
executor emits neither event: the trace is exactly the single body
invocation. -/
theorem c2_step_events (stepId : String) (body : ExecBody) (cs : Option Nat)
    (input : Value) (rp : Option RetryPolicy) (ctx : Context) :
    (∀ p, rp = some p →
      (executeWithRetry stepId body cs input rp ctx).2.2.take 2 =
          [.stepStart 1, .invokeBody 1] ∧
        ((executeWithRetry stepId body cs input rp ctx).1.status = .success →
          ∃ rc, TraceEv.stepComplete rc ∈
            (executeWithRetry stepId body cs input rp ctx).2.2)) ∧
    (rp = none →
      (executeWithRetry stepId body cs input rp ctx).2.2 = [.invokeBody 1]) := by
  constructor
  · intro p hp
    subst hp
    rcases hbody : body 1 input ctx with ⟨ctx', out⟩
    cases out with
    | ok v =>
      simp [executeWithRetry, executeSingleAttempt, hbody]
    | error msg =>
      have hexp : executeWithRetry stepId body cs input (some p) ctx =
          ((retryLoop stepId body cs p input p.maxRetries 0 ctx' (.stepExecution msg stepId)).1,
            (retryLoop stepId body cs p input p.maxRetries 0 ctx' (.stepExecution msg stepId)).2.1,
            .stepStart 1 :: .invokeBody 1 ::
              (retryLoop stepId body cs p input p.maxRetries 0 ctx' (.stepExecution msg stepId)).2.2) := by
        simp [executeWithRetry, executeSingleAttempt, hbody]
      rw [hexp]
      refine ⟨rfl, ?_⟩
      intro hsucc
      obtain ⟨n, _, _, hcm, _⟩ :=
        retryLoop_shape stepId body cs p input p.maxRetries 0 ctx'
          (.stepExecution msg stepId)
      obtain ⟨rc, hrc⟩ := hcm.mpr hsucc
      exact ⟨rc, by simp [hrc]⟩
  · intro hp
    subst hp
    rcases hbody : body 1 input ctx with ⟨ctx', out⟩
    cases out <;> simp [executeWithRetry, executeSingleAttempt, hbody]

/-- C2, witness for the amended theorem: a step with retry policy
(maxRetries 1) whose body succeeds immediately. -/
theorem c2_step_events_witness :
    (executeWithRetry "s1" (fun _ _ c => (c, .ok (.vnum 7))) none .vundefined
          (some ⟨1, 10, none, none⟩) ⟨[], []⟩).2.2.take 2 =
        [.stepStart 1, .invokeBody 1] ∧
      ((executeWithRetry "s1" (fun _ _ c => (c, .ok (.vnum 7))) none .vundefined
          (some ⟨1, 10, none, none⟩) ⟨[], []⟩).1.status = .success →
        ∃ rc, TraceEv.stepComplete rc ∈
          (executeWithRetry "s1" (fun _ _ c => (c, .ok (.vnum 7))) none .vundefined
            (some ⟨1, 10, none, none⟩) ⟨[], []⟩).2.2) :=
  (c2_step_events "s1" (fun _ _ c => (c, .ok (.vnum 7))) none .vundefined
    (some ⟨1, 10, none, none⟩) ⟨[], []⟩).1 ⟨1, 10, none, none⟩ rfl

/-! ## C3: cancellation during the inter-attempt sleep -/

/-- Behaviour of the retry loop when the cancellation flag is set during
sleep number `j` and every attempt up to `j + 1` fails: the loop keeps
running until the check at retry count `j` observes the flag, so the
attempts after the flag was set still execute. -/
theorem retryLoop_cancel_during_sleep (stepId : String) (body : ExecBody)
    (p : RetryPolicy) (input : Value) (j : Nat) (hj : j < p.maxRetries)
    (hfail : ∀ k ctx', 2 ≤ k → k ≤ j + 1 → ∃ m, (body k input ctx').2 = .error m) :
    ∀ fuel count ctx lastError, count ≤ j → j - count < fuel →
      (retryLoop stepId body (some j) p input fuel count ctx lastError).1 =
          ⟨stepId, .failed, .vundefined, some .cancelledStep, some j⟩ ∧
        invokeCount (retryLoop stepId body (some j) p input fuel count ctx lastError).2.2 =
          j - count := by
  intro fuel
  induction fuel with
  | zero =>
    intro count ctx lastError hcj hf
    omega
  | succ f ih =>
    intro count ctx lastError hcj hf
    by_cases hcount : count = j
    · subst hcount
      have hv : cancelVisible (some count) count = true := by simp [cancelVisible]
      rw [retryLoop_cancelled stepId body (some count) p input f count ctx lastError hj hv]
      simp [invokeCount, attemptsOf]
    · have hlt : count < j := by omega
      have hc : count < p.maxRetries := by omega
      have hv : cancelVisible (some j) count = false := by
        simp only [cancelVisible, decide_eq_false_iff_not]
        omega
      rcases hbody : body (count + 1 + 1) input ctx with ⟨ctx', out⟩
      obtain ⟨m, hm⟩ := hfail (count + 1 + 1) ctx (by omega) (by omega)
      rw [hbody] at hm
      simp only at hm
      cases out with
      | ok v => simp at hm
      | error msg =>
        rw [retryLoop_step_err stepId body (some j) p input f count ctx ctx' lastError msg hc hv hbody]
        obtain ⟨hres, hcnt⟩ :=
          ih (count + 1) ctx' (.stepExecution msg stepId) (by omega) (by omega)
        refine ⟨hres, ?_⟩
        simp only [invokeCount, attemptsOf, List.filterMap_cons] at hcnt ⊢
        simp only [List.length_cons]
        omega

/-- C3, counterexample.  Claimed: a step whose cancellation flag is set
while the executor sleeps between two attempts does not invoke the body
again after the sleep and ends Failed with a cancellation error.  Take
`maxRetries = 1`, a body that fails on attempt 1 and succeeds on attempt 2,
and the flag set during the first sleep (`cancelSleep = some 1`): the loop
checked the flag before the sleep, so after the sleep it still runs attempt
2, which succeeds — the body is invoked twice and the step ends Success,
not Failed(cancelled). -/
theorem c3_counterexample :
    (executeWithRetry "s1"
        (fun k _ c => (c, if k = 1 then .error "boom" else .ok (.vnum 7)))
        (some 1) .vundefined (some ⟨1, 5, none, none⟩) ⟨[], []⟩).1.status = .success ∧
      invokeCount (executeWithRetry "s1"
        (fun k _ c => (c, if k = 1 then .error "boom" else .ok (.vnum 7)))
        (some 1) .vundefined (some ⟨1, 5, none, none⟩) ⟨[], []⟩).2.2 = 2 := by
  exact ⟨rfl, rfl⟩

/-- C3, amended.  The executor checks the cancellation flag at the top of
each retry iteration, before the sleep.  A flag set during sleep number `j`
(the sleep preceding attempt `j + 1`) is therefore observed only at the
next iteration's check: when every attempt up to `j + 1` fails (and `j <
maxRetries`), the body runs exactly `j + 1` times — including the one
attempt after the sleep during which the flag was set — and the step then
ends Failed with the cancellation error and `retryCount = j`. -/
theorem c3_cancel_between_attempts (stepId : String) (body : ExecBody)
    (p : RetryPolicy) (input : Value) (ctx : Context) (j : Nat)
    (hj : j < p.maxRetries)
    (hfail : ∀ k ctx', k ≤ j + 1 → ∃ m, (body k input ctx').2 = .error m) :
    (executeWithRetry stepId body (some j) input (some p) ctx).1 =
        ⟨stepId, .failed, .vundefined, some .cancelledStep, some j⟩ ∧
      invokeCount (executeWithRetry stepId body (some j) input (some p) ctx).2.2 =
        j + 1 := by
  rcases hbody : body 1 input ctx with ⟨ctx', out⟩
  obtain ⟨m, hm⟩ := hfail 1 ctx (by omega)
  rw [hbody] at hm
  simp only at hm
  cases out with
  | ok v => simp at hm
  | error msg =>
    have hexp : executeWithRetry stepId body (some j) input (some p) ctx =
        ((retryLoop stepId body (some j) p input p.maxRetries 0 ctx'
            (.stepExecution msg stepId)).1,
          (retryLoop stepId body (some j) p input p.maxRetries 0 ctx'
            (.stepExecution msg stepId)).2.1,
          .stepStart 1 :: .invokeBody 1 ::
            (retryLoop stepId body (some j) p input p.maxRetries 0 ctx'
              (.stepExecution msg stepId)).2.2) := by
      simp [executeWithRetry, executeSingleAttempt, hbody]
    rw [hexp]
    obtain ⟨hres, hcount⟩ := retryLoop_cancel_during_sleep stepId body p input j hj
      (fun k c _ hle => hfail k c hle) p.maxRetries 0 ctx' (.stepExecution msg stepId)
      (by omega) (by omega)
    refine ⟨hres, ?_⟩
    simp only [invokeCount, attemptsOf, List.filterMap_cons] at hcount ⊢
    simp only [List.length_cons]
    omega

/-- C3, witness for the amended theorem: maxRetries 2, flag set during the
first sleep, body failing on attempts 1 and 2. -/
theorem c3_cancel_between_attempts_witness :
    (executeWithRetry "s1" (fun _ _ c => (c, .error "always"))
        (some 1) .vundefined (some ⟨2, 5, none, none⟩) ⟨[], []⟩).1 =
        ⟨"s1", .failed, .vundefined, some .cancelledStep, some 1⟩ ∧
      invokeCount (executeWithRetry "s1" (fun _ _ c => (c, .error "always"))
        (some 1) .vundefined (some ⟨2, 5, none, none⟩) ⟨[], []⟩).2.2 = 2 :=
  c3_cancel_between_attempts "s1" (fun _ _ c => (c, .error "always"))
    ⟨2, 5, none, none⟩ .vundefined ⟨[], []⟩ 1 (by decide)
    (fun _ _ _ => ⟨"always", rfl⟩)

/-! ## C4: retry exhaustion bound -/

/-- Behaviour of the retry loop when the body always fails and the step is
never cancelled: the loop runs the full retry budget down. -/
theorem retryLoop_always_fails (stepId : String) (body : ExecBody)
    (p : RetryPolicy) (input : Value)
    (hfail : ∀ k ctx', ∃ m, (body k input ctx').2 = .error m) :
    ∀ fuel count ctx lastError, p.maxRetries - count ≤ fuel → count ≤ p.maxRetries →
      (retryLoop stepId body none p input fuel count ctx lastError).1.status = .failed ∧
        (retryLoop stepId body none p input fuel count ctx lastError).1.retryCount =
          some p.maxRetries ∧
        invokeCount (retryLoop stepId body none p input fuel count ctx lastError).2.2 =
          p.maxRetries - count := by
  intro fuel
  induction fuel with
  | zero =>
    intro count ctx lastError hf hcle
    have hce : count = p.maxRetries := by omega
    rw [retryLoop_zero stepId body none p input count ctx lastError]
    simp [invokeCount, attemptsOf, hce]
  | succ f ih =>
    intro count ctx lastError hf hcle
    by_cases hc : count < p.maxRetries
    · have hv : cancelVisible none count = false := rfl
      rcases hbody : body (count + 1 + 1) input ctx with ⟨ctx', out⟩
      obtain ⟨m, hm⟩ := hfail (count + 1 + 1) ctx
      rw [hbody] at hm
      simp only at hm
      cases out with
      | ok v => simp at hm
      | error msg =>
        rw [retryLoop_step_err stepId body none p input f count ctx ctx' lastError msg hc hv hbody]
        obtain ⟨h1, h2, h3⟩ := ih (count + 1) ctx' (.stepExecution msg stepId)
          (by omega) (by omega)
        refine ⟨h1, h2, ?_⟩
        simp only [invokeCount, attemptsOf, List.filterMap_cons] at h3 ⊢
        simp only [List.length_cons]
        omega
    · have hce : count = p.maxRetries := by omega
      rw [retryLoop_exhausted stepId body none p input (f + 1) count ctx lastError hc]
      simp [invokeCount, attemptsOf, hce]

/-- C4, confirmed.  For a step with retry policy `maxRetries = N` whose body
fails on every attempt and which is never cancelled, the body is invoked
exactly `N + 1` times (in particular at most `N + 1` times) and the Failed
result carries `retryCount = N`. -/
theorem c4_retry_exhaustion (stepId : String) (body : ExecBody) (input : Value)
    (ctx : Context) (p : RetryPolicy)
    (hfail : ∀ k ctx', ∃ m, (body k input ctx').2 = .error m) :
    (executeWithRetry stepId body none input (some p) ctx).1.status = .failed ∧
      (executeWithRetry stepId body none input (some p) ctx).1.retryCount =
        some p.maxRetries ∧
      invokeCount (executeWithRetry stepId body none input (some p) ctx).2.2 =
        p.maxRetries + 1 := by
  rcases hbody : body 1 input ctx with ⟨ctx', out⟩
  obtain ⟨m, hm⟩ := hfail 1 ctx
  rw [hbody] at hm
  simp only at hm
  cases out with
  | ok v => simp at hm
  | error msg =>
    have hexp : executeWithRetry stepId body none input (some p) ctx =
        ((retryLoop stepId body none p input p.maxRetries 0 ctx'
            (.stepExecution msg stepId)).1,
          (retryLoop stepId body none p input p.maxRetries 0 ctx'
            (.stepExecution msg stepId)).2.1,
          .stepStart 1 :: .invokeBody 1 ::
            (retryLoop stepId body none p input p.maxRetries 0 ctx'
              (.stepExecution msg stepId)).2.2) := by
      simp [executeWithRetry, executeSingleAttempt, hbody]
    rw [hexp]
    obtain ⟨h1, h2, h3⟩ := retryLoop_always_fails stepId body p input hfail
      p.maxRetries 0 ctx' (.stepExecution msg stepId) (by omega) (by omega)
    refine ⟨h1, h2, ?_⟩
    simp only [invokeCount, attemptsOf, List.filterMap_cons] at h3 ⊢
    simp only [List.length_cons]
    omega

/-- C4, witness: maxRetries 2, always-failing body — 3 invocations,
`retryCount = 2`. -/
theorem c4_retry_exhaustion_witness :
    (executeWithRetry "s1" (fun _ _ c => (c, .error "bad")) none .vundefined
        (some ⟨2, 10, none, none⟩) ⟨[], []⟩).1.status = .failed ∧
      (executeWithRetry "s1" (fun _ _ c => (c, .error "bad")) none .vundefined
        (some ⟨2, 10, none, none⟩) ⟨[], []⟩).1.retryCount = some 2 ∧
      invokeCount (executeWithRetry "s1" (fun _ _ c => (c, .error "bad")) none .vundefined
        (some ⟨2, 10, none, none⟩) ⟨[], []⟩).2.2 = 2 + 1 :=
  c4_retry_exhaustion "s1" (fun _ _ c => (c, .error "bad")) .vundefined ⟨[], []⟩
    ⟨2, 10, none, none⟩ (fun _ _ => ⟨"bad", rfl⟩)

/-! ## C5: exponential backoff intervals -/

/-- C5, confirmed.  With exponential backoff enabled (base `B`, multiplier
`M`, defaulting to 2), the i-th sleep recorded by `executeWithRetry`
(0-based) has duration `B * M ^ i` and is the sleep performed before attempt
`k = i + 2`, i.e. the sleep before attempt `k ≥ 2` lasts `B * M ^ (k - 2)`
milliseconds. -/
theorem c5_exponential_backoff (stepId : String) (body : ExecBody)
    (cs : Option Nat) (input : Value) (ctx : Context) (p : RetryPolicy)
    (hexp : p.exponentialBackoff = some true) :
    ∀ i d, (sleepsOf (executeWithRetry stepId body cs input (some p) ctx).2.2).get? i =
        some d →
      d = p.retryInterval * (p.backoffMultiplier.getD 2) ^ i ∧
        (attemptsOf (executeWithRetry stepId body cs input (some p) ctx).2.2).get? (i + 1) =
          some (i + 2) := by
  intro i d hd
  rcases hbody : body 1 input ctx with ⟨ctx', out⟩
  cases out with
  | ok v =>
    rw [show executeWithRetry stepId body cs input (some p) ctx =
        (⟨stepId, .success, v, none, none⟩, ctx',
          [.stepStart 1, .invokeBody 1, .stepComplete none]) from by
      simp [executeWithRetry, executeSingleAttempt, hbody]] at hd
    simp [sleepsOf] at hd
  | error msg =>
    have hexp2 : executeWithRetry stepId body cs input (some p) ctx =
        ((retryLoop stepId body cs p input p.maxRetries 0 ctx'
            (.stepExecution msg stepId)).1,
          (retryLoop stepId body cs p input p.maxRetries 0 ctx'
            (.stepExecution msg stepId)).2.1,
          .stepStart 1 :: .invokeBody 1 ::
            (retryLoop stepId body cs p input p.maxRetries 0 ctx'
              (.stepExecution msg stepId)).2.2) := by
      simp [executeWithRetry, executeSingleAttempt, hbody]
    rw [hexp2] at hd ⊢
    obtain ⟨n, hs, ha, _⟩ := retryLoop_shape stepId body cs p input
      p.maxRetries 0 ctx' (.stepExecution msg stepId)
    simp only [sleepsOf, attemptsOf, List.filterMap_cons] at hd hs ha ⊢
    rw [hs] at hd
    rw [ha]
    have hlen : i < n := by
      by_contra hge
      rw [List.get?_eq_getElem?] at hd
      rw [List.getElem?_eq_none (by simpa using Nat.le_of_not_lt hge)] at hd
      simp at hd
    have hdm : (List.map (getNextRetryInterval p) (List.range' 0 n)).get? i =
        some (getNextRetryInterval p i) := by
      rw [List.get?_eq_getElem?, List.getElem?_map, List.getElem?_range' 0 1 hlen]
      simp
    rw [hdm] at hd
    have hdv : d = getNextRetryInterval p i := by
      exact (Option.some.injEq _ _ ▸ hd).symm
    constructor
    · rw [hdv]
      simp [getNextRetryInterval, hexp]
    · rw [List.get?_eq_getElem?]
      simp only [List.getElem?_cons_succ]
      rw [show (0 + 2 : Nat) = 2 from rfl] at *
      rw [List.getElem?_range' 2 1 hlen]
      simp [Nat.add_comm]

/-- C5, witness: base 10, multiplier 2, always-failing body with maxRetries
2 — the second sleep (index 1) lasts 10 * 2 ^ 1 = 20 ms and precedes attempt
3. -/
theorem c5_exponential_backoff_witness :
    (20 : Nat) = 10 * 2 ^ 1 ∧
      (attemptsOf (executeWithRetry "s1" (fun _ _ c => (c, .error "bad")) none
          .vundefined (some ⟨2, 10, some true, none⟩) ⟨[], []⟩).2.2).get? 2 = some 3 := by
  have h := c5_exponential_backoff "s1" (fun _ _ c => (c, .error "bad")) none
    .vundefined ⟨[], []⟩ ⟨2, 10, some true, none⟩ rfl 1 20 rfl
  exact ⟨h.1, by simpa using h.2⟩

/-! ## C7: ready frontier characterisation -/

/-- C7, confirmed.  A step is returned by `getReadySteps(dag, completed)`
exactly when it is the step of a node whose id is not completed and all of
whose dependencies are completed.  (For DAGs produced by `build`, the node
key is the step's own id.) -/
theorem c7_ready_frontier (dag : DAG) (completed : List String) (s : StepDefinition) :
    s ∈ getReadySteps dag completed ↔
      ∃ id node, (id, node) ∈ dag.nodes ∧ node.step = s ∧ id ∉ completed ∧
        ∀ d ∈ depsOf dag id, d ∈ completed := by
  simp only [getReadySteps, List.mem_map, List.mem_filter]
  constructor
  · rintro ⟨⟨id, node⟩, ⟨hmem, hcond⟩, hstep⟩
    simp only [Bool.and_eq_true, decide_eq_true_eq, List.all_eq_true] at hcond
    exact ⟨id, node, hmem, hstep, hcond.1, fun d hd => by
      have := hcond.2 d hd
      simpa using this⟩
  · rintro ⟨id, node, hmem, hstep, hnc, hdeps⟩
    refine ⟨(id, node), ⟨hmem, ?_⟩, hstep⟩
    simp only [Bool.and_eq_true, decide_eq_true_eq, List.all_eq_true]
    exact ⟨hnc, fun d hd => by simpa using hdeps d hd⟩

/-- C7, witness: in the two-node DAG `A → B` with A completed, step B is in
the ready frontier. -/
theorem c7_ready_frontier_witness :
    (⟨"B", "B", "task", some ["A"], none, none, none⟩ : StepDefinition) ∈
      getReadySteps
        ⟨[("A", ⟨⟨"A", "A", "task", none, none, none, none⟩, 0, 1⟩),
          ("B", ⟨⟨"B", "B", "task", some ["A"], none, none, none⟩, 1, 0⟩)],
         [("A", []), ("B", ["A"])]⟩ ["A"] :=
  (c7_ready_frontier _ _ _).mpr
    ⟨"B", ⟨⟨"B", "B", "task", some ["A"], none, none, none⟩, 1, 0⟩,
      List.mem_cons_of_mem _ (List.mem_cons_self _ _), rfl, by simp,
      by intro d hd; simp [depsOf, lookupA] at hd; simp [hd]⟩


/-! ## Association-list lemmas -/

/-- A key outside the key list of an association list looks up to nothing. -/
theorem lookupA_eq_none_of_not_mem {α : Type} (m : List (String × α)) (k : String)
    (h : k ∉ m.map Prod.fst) : lookupA m k = none := by
  induction m with
  | nil => rfl
  | cons p rest ih =>
    rcases p with ⟨k0, v0⟩
    simp only [List.map_cons, List.mem_cons, not_or] at h
    have hne0 : ¬ k0 = k := fun he => h.1 he.symm
    simp only [lookupA, if_neg hne0]
    exact ih h.2

/-- Erasing a key from a duplicate-free association list removes it from the
lookup domain. -/
theorem lookupA_eraseA_self {α : Type} (m : List (String × α)) (k : String)
    (hnd : (m.map Prod.fst).Nodup) : lookupA (eraseA m k) k = none := by
  induction m with
  | nil => rfl
  | cons p rest ih =>
    rcases p with ⟨k0, v0⟩
    simp only [List.map_cons, List.nodup_cons] at hnd
    by_cases hk : k0 = k
    · subst hk
      simp only [eraseA, if_pos rfl]
      exact lookupA_eq_none_of_not_mem rest k0 hnd.1
    · simp only [eraseA, if_neg hk, lookupA, if_neg hk]
      exact ih hnd.2

/-- `eraseA` does not affect lookups of other keys. -/
theorem lookupA_eraseA_ne {α : Type} (m : List (String × α)) (k k' : String)
    (hne : k' ≠ k) : lookupA (eraseA m k) k' = lookupA m k' := by
  induction m with
  | nil => rfl
  | cons p rest ih =>
    rcases p with ⟨k0, v0⟩
    by_cases hk : k0 = k
    · subst hk
      have hne0 : ¬ k0 = k' := fun he => hne he.symm
      simp [eraseA, lookupA, hne0]
    · simp only [eraseA, if_neg hk, lookupA]
      by_cases h0 : k0 = k'
      · simp [h0]
      · simp [h0, ih]

/-- `setA` stores the given value at the given key. -/
theorem lookupA_setA_self {α : Type} (m : List (String × α)) (k : String) (v : α) :
    lookupA (setA m k v) k = some v := by
  induction m with
  | nil => simp [setA, lookupA]
  | cons p rest ih =>
    rcases p with ⟨k0, v0⟩
    by_cases hk : k0 = k
    · simp [setA, hk, lookupA]
    · simp [setA, hk, lookupA, ih]

/-- `setA` does not affect lookups of other keys. -/
theorem lookupA_setA_ne {α : Type} (m : List (String × α)) (k k' : String) (v : α)
    (hne : k' ≠ k) : lookupA (setA m k v) k' = lookupA m k' := by
  induction m with
  | nil =>
    simp only [setA, lookupA]
    rw [if_neg (fun h => hne h.symm)]
  | cons p rest ih =>
    rcases p with ⟨k0, v0⟩
    by_cases hk : k0 = k
    · subst hk
      simp only [setA, if_pos rfl, lookupA]
      rw [if_neg (fun h => hne h.symm), if_neg (fun h => hne h.symm)]
    · simp only [setA, if_neg hk, lookupA]
      by_cases h0 : k0 = k'
      · simp [h0]
      · simp [h0, ih]

/-- Membership survives erasure of another element. -/
theorem not_mem_erase_of_not_mem {α : Type} [DecidableEq α] (l : List α) (a b : α)
    (h : a ∉ l) : a ∉ l.erase b :=
  fun hmem => h (List.mem_of_mem_erase hmem)

/-! ## C9: wait resolution releases the map entry and the timer -/

/-- Effect of `clearWaitItem` when the item is present: the entry is erased,
the item's timer handle is cleared, and other state components keep their
timers except that handle. -/
theorem clearWaitItem_present (s : WMState) (stepId : String) (item : WaitItem)
    (hl : lookupA s.waitingItems stepId = some item) :
    (clearWaitItem s stepId).waitingItems = eraseA s.waitingItems stepId ∧
      (clearWaitItem s stepId).timers = (match item.timeoutId with
        | some h => s.timers.erase h
        | none => s.timers) := by
  simp [clearWaitItem, hl]

/-- `handleTimeout` under the Error or Default strategy deletes the entry
and leaves the item's timer handle unarmed. -/
theorem handleTimeout_clears (s : WMState) (stepId : String) (item : WaitItem)
    (hl : lookupA s.waitingItems stepId = some item)
    (hkeys : (s.waitingItems.map Prod.fst).Nodup)
    (hstrat : (item.timeoutConfig.map TimeoutConfig.strategy).getD .error ≠ .ignore)
    (htm : ∀ h, item.timeoutId = some h → h ∉ s.timers) :
    lookupA (handleTimeout s stepId item).waitingItems stepId = none ∧
      ∀ h, item.timeoutId = some h → h ∉ (handleTimeout s stepId item).timers := by
  obtain ⟨hw, ht⟩ := clearWaitItem_present s stepId item hl
  rcases hsv : (item.timeoutConfig.map TimeoutConfig.strategy).getD .error with _ | _ | _
  · constructor
    · simp only [handleTimeout, hsv, hw]
      exact lookupA_eraseA_self _ _ hkeys
    · intro h hh
      simp only [handleTimeout, hsv, ht, hh]
      exact not_mem_erase_of_not_mem _ _ _ (htm h hh)
  · constructor
    · simp only [handleTimeout, hsv, hw]
      exact lookupA_eraseA_self _ _ hkeys
    · intro h hh
      simp only [handleTimeout, hsv, ht, hh]
      exact not_mem_erase_of_not_mem _ _ _ (htm h hh)
  · exact absurd hsv hstrat

/-- C9, confirmed.  For a wait-manager state with duplicate-free maps and
timer handles: `resumeWait` and `cancelWait` return `true` exactly when a
wait for the step exists (and change nothing when none does); and every
resolution — resume, cancel, or a firing timeout whose strategy is Error or
Default — deletes the step's entry from `waitingItems` and releases its
timeout timer handle. -/
theorem c9_wait_resolution (s : WMState) (stepId : String) (v : Value)
    (reason : String) (hkeys : (s.waitingItems.map Prod.fst).Nodup)
    (htimers : s.timers.Nodup) :
    ((resumeWait s stepId v).1 = isWaiting s stepId) ∧
    ((cancelWait s stepId reason).1 = isWaiting s stepId) ∧
    (isWaiting s stepId = false →
      (resumeWait s stepId v).2 = s ∧ (cancelWait s stepId reason).2 = s) ∧
    (∀ item, lookupA s.waitingItems stepId = some item →
      lookupA (resumeWait s stepId v).2.waitingItems stepId = none ∧
      lookupA (cancelWait s stepId reason).2.waitingItems stepId = none ∧
      (∀ h, item.timeoutId = some h →
        h ∉ (resumeWait s stepId v).2.timers ∧
        h ∉ (cancelWait s stepId reason).2.timers) ∧
      (∀ h, item.timeoutId = some h → h ∈ s.timers →
        (item.timeoutConfig.map TimeoutConfig.strategy).getD .error ≠ .ignore →
        lookupA (fireTimeout s stepId).waitingItems stepId = none ∧
        h ∉ (fireTimeout s stepId).timers)) := by
  refine ⟨?_, ?_, ?_, ?_⟩
  · cases hl : lookupA s.waitingItems stepId <;> simp [resumeWait, isWaiting, hl]
  · cases hl : lookupA s.waitingItems stepId <;> simp [cancelWait, isWaiting, hl]
  · intro hnw
    cases hl : lookupA s.waitingItems stepId with
    | none => simp [resumeWait, cancelWait, hl]
    | some it =>
      rw [isWaiting, hl] at hnw
      simp at hnw
  · intro item hl
    have hl1 : lookupA ({ s with events := s.events ++ [(.waitResume, stepId)]} :
        WMState).waitingItems stepId = some item := hl
    have hl2 : lookupA ({ s with events := s.events ++ [(.waitCancel, stepId)]} :
        WMState).waitingItems stepId = some item := hl
    obtain ⟨hw1, ht1⟩ := clearWaitItem_present _ stepId item hl1
    obtain ⟨hw2, ht2⟩ := clearWaitItem_present _ stepId item hl2
    have hwr : (resumeWait s stepId v).2.waitingItems =
        (clearWaitItem { s with events := s.events ++ [(.waitResume, stepId)]}
          stepId).waitingItems := by
      simp [resumeWait, hl]
    have htr : (resumeWait s stepId v).2.timers =
        (clearWaitItem { s with events := s.events ++ [(.waitResume, stepId)]}
          stepId).timers := by
      simp [resumeWait, hl]
    have hwc : (cancelWait s stepId reason).2.waitingItems =
        (clearWaitItem { s with events := s.events ++ [(.waitCancel, stepId)]}
          stepId).waitingItems := by
      simp [cancelWait, hl]
    have htc : (cancelWait s stepId reason).2.timers =
        (clearWaitItem { s with events := s.events ++ [(.waitCancel, stepId)]}
          stepId).timers := by
      simp [cancelWait, hl]
    refine ⟨?_, ?_, ?_, ?_⟩
    · rw [hwr, hw1]
      exact lookupA_eraseA_self _ _ hkeys
    · rw [hwc, hw2]
      exact lookupA_eraseA_self _ _ hkeys
    · intro h hh
      constructor
      · rw [htr, ht1, hh]
        exact htimers.not_mem_erase
      · rw [htc, ht2, hh]
        exact htimers.not_mem_erase
    · intro h hh hmem hstrat
      have hfire : fireTimeout s stepId =
          handleTimeout ⟨s.waitingItems, s.stepStates, s.timers.erase h,
            s.nextTimerId, s.events ++ [(.waitTimeout, stepId)], s.outcomes⟩
            stepId item := by
        simp [fireTimeout, hl, hh, hmem]
      rw [hfire]
      have := handleTimeout_clears
        ⟨s.waitingItems, s.stepStates, s.timers.erase h,
          s.nextTimerId, s.events ++ [(.waitTimeout, stepId)], s.outcomes⟩
        stepId item hl hkeys hstrat
        (by
          intro h0 hh0
          rw [hh0] at hh
          cases hh
          exact htimers.not_mem_erase)
      exact ⟨this.1, this.2 h hh⟩

/-- C9, witness: after starting a wait with a 100 ms Error-strategy timeout,
`resumeWait` reports true (a wait existed) and removes the entry. -/
theorem c9_wait_resolution_witness :
    (resumeWait (startWaitWithConfig {} "s1" .ui "comp" (some ⟨100, .error, .vundefined⟩)
        .vundefined 0) "s1" (.vnum 1)).1 =
      isWaiting (startWaitWithConfig {} "s1" .ui "comp" (some ⟨100, .error, .vundefined⟩)
        .vundefined 0) "s1" ∧
    lookupA (resumeWait (startWaitWithConfig {} "s1" .ui "comp"
        (some ⟨100, .error, .vundefined⟩) .vundefined 0) "s1" (.vnum 1)).2.waitingItems "s1" =
      none := by
  have h := c9_wait_resolution
    (startWaitWithConfig {} "s1" .ui "comp" (some ⟨100, .error, .vundefined⟩) .vundefined 0)
    "s1" (.vnum 1) "r" (by simp [startWaitWithConfig, setA]) (by simp [startWaitWithConfig])
  exact ⟨h.1, (h.2.2.2 _ rfl).1⟩


/-! ## C8: schema validation failures short-circuit tool invocation -/

/-- A string with a strictly positive length is not empty. -/
theorem string_ne_empty_of_length_pos (s : String) (h : 0 < s.length) : s ≠ "" := by
  intro he
  rw [he] at h
  simp at h

/-- The path label shown in validation errors is never the empty string. -/
theorem pathLabel_ne_empty (path : String) : pathLabel path ≠ "" := by
  unfold pathLabel
  by_cases h : path = ""
  · simp [h]
  · simp [h]

/-- Unfolding of `validateSchema` on a type-tag mismatch. -/
theorem validateSchema_mismatch (value : Value) (schema : Schema) (path : String)
    (h : getValueType value ≠ schema.typeName) :
    validateSchema value schema path =
      [pathLabel path ++ ": 期望类型 " ++ schema.typeName ++ "，实际类型 " ++
        getValueType value] := by
  simp only [validateSchema.eq_def]
  rw [if_neg h]

/-- Unfolding of `validateSchema` on an object value against an object
schema. -/
theorem validateSchema_obj (fields : List (String × Value))
    (required : Option (List String)) (properties : Option (List (String × Schema)))
    (path : String) :
    validateSchema (.vobj fields) (.sobject required properties) path =
      requiredErrors fields (required.getD []) (pathLabel path) ++
        (match properties with
         | some props => validateProps fields props (pathLabel path)
         | none => []) := by
  simp only [validateSchema.eq_def]
  rw [if_pos (show getValueType (.vobj fields) =
    (Schema.sobject required properties).typeName from rfl)]

/-- Unfolding of `validateSchema` on an array value against an array schema
with an `items` schema. -/
theorem validateSchema_arr (elems : List Value) (items : Schema) (path : String) :
    validateSchema (.varr elems) (.sarray (some items)) path =
      validateItems elems items (pathLabel path) 0 := by
  simp only [validateSchema.eq_def]
  rw [if_pos (show getValueType (.varr elems) =
    (Schema.sarray (some items)).typeName from rfl)]

/-- A boolean value against a boolean schema validates cleanly. -/
theorem validateSchema_bool (b : Bool) (path : String) :
    validateSchema (.vbool b) .sboolean path = [] := by
  simp only [validateSchema.eq_def]
  rw [if_pos (show getValueType (.vbool b) = Schema.sboolean.typeName from rfl)]

/-- A number value against a number schema validates cleanly. -/
theorem validateSchema_num (n : Int) (path : String) :
    validateSchema (.vnum n) .snumber path = [] := by
  simp only [validateSchema.eq_def]
  rw [if_pos (show getValueType (.vnum n) = Schema.snumber.typeName from rfl)]

/-- A string value against a string schema validates cleanly. -/
theorem validateSchema_str (s : String) (path : String) :
    validateSchema (.vstr s) .sstring path = [] := by
  simp only [validateSchema.eq_def]
  rw [if_pos (show getValueType (.vstr s) = Schema.sstring.typeName from rfl)]

/-- An array value against an array schema without `items` validates
cleanly. -/
theorem validateSchema_arr_none (elems : List Value) (path : String) :
    validateSchema (.varr elems) (.sarray none) path = [] := by
  simp only [validateSchema.eq_def]
  rw [if_pos (show getValueType (.varr elems) = (Schema.sarray none).typeName from rfl)]

/-- Property-loop errors extend the (non-empty) current path, assuming the
prefix property for every property schema in the list. -/
theorem validateProps_prefix (fields : List (String × Value))
    (props : List (String × Schema)) (currentPath : String)
    (IH : ∀ ps : Schema, (∃ name, (name, ps) ∈ props) →
      ∀ (value : Value) (path e : String), e ∈ validateSchema value ps path →
        ∃ t, e = pathLabel path ++ t) :
    ∀ e ∈ validateProps fields props currentPath, ∃ t, e = currentPath ++ t := by
  induction props with
  | nil =>
    intro e he
    rw [validateProps.eq_def] at he
    simp at he
  | cons hd rest ihl =>
    rcases hd with ⟨propName, propSchema⟩
    intro e he
    rw [validateProps.eq_def] at he
    simp only [List.mem_append] at he
    rcases he with hhd | htl
    · rcases hpv : lookupA fields propName with _ | pv
      · rw [hpv] at hhd
        simp at hhd
      · rw [hpv] at hhd
        simp only at hhd
        obtain ⟨t, ht⟩ := IH propSchema ⟨propName, by simp⟩ pv
          (currentPath ++ "." ++ propName) e hhd
        have hne : currentPath ++ "." ++ propName ≠ "" := by
          apply string_ne_empty_of_length_pos
          rw [String.length_append, String.length_append]
          have : (0:Nat) < ".".length := by decide
          omega
        rw [pathLabel, if_neg hne] at ht
        exact ⟨"." ++ propName ++ t, by rw [ht]; simp [String.append_assoc]⟩
    · exact ihl (fun ps hmem v pth e2 he2 =>
        IH ps ⟨hmem.choose, List.mem_cons_of_mem _ hmem.choose_spec⟩ v pth e2 he2) e htl

/-- Element-loop errors extend the (non-empty) current path, assuming the
prefix property for the element schema. -/
theorem validateItems_prefix (elems : List Value) (items : Schema)
    (currentPath : String)
    (IH : ∀ (value : Value) (path e : String), e ∈ validateSchema value items path →
      ∃ t, e = pathLabel path ++ t) :
    ∀ i, ∀ e ∈ validateItems elems items currentPath i, ∃ t, e = currentPath ++ t := by
  induction elems with
  | nil =>
    intro i e he
    rw [validateItems.eq_def] at he
    simp at he
  | cons el rest ihl =>
    intro i e he
    rw [validateItems.eq_def] at he
    simp only [List.mem_append] at he
    rcases he with hhd | htl
    · obtain ⟨t, ht⟩ := IH el (currentPath ++ "[" ++ toString i ++ "]") e hhd
      have hne : currentPath ++ "[" ++ toString i ++ "]" ≠ "" := by
        apply string_ne_empty_of_length_pos
        rw [String.length_append, String.length_append, String.length_append]
        have : (0:Nat) < "[".length := by decide
        omega
      rw [pathLabel, if_neg hne] at ht
      exact ⟨"[" ++ toString i ++ "]" ++ t, by rw [ht]; simp [String.append_assoc]⟩
    · exact ihl (i + 1) e htl

/-- Every error produced by `validateSchema` is qualified by the path at
which validation was running: it extends the current path label (proved by
strong induction on the schema size). -/
theorem validateSchema_prefix_bounded :
    ∀ (n : Nat) (schema : Schema), sizeOf schema ≤ n →
      ∀ (value : Value) (path e : String), e ∈ validateSchema value schema path →
        ∃ t, e = pathLabel path ++ t := by
  intro n
  induction n with
  | zero =>
    intro schema hs
    exfalso
    rcases schema <;> simp at hs
  | succ m ih =>
    intro schema hs value path e he
    by_cases hty : getValueType value = schema.typeName
    · rcases value with _ | _ | b | nv | str | elems | fields <;>
        rcases schema with _ | _ | _ | ⟨required, properties⟩ | items <;>
        first
        | exact absurd hty (of_decide_eq_false rfl)
        | skip
      · rw [validateSchema_bool] at he
        simp at he
      · rw [validateSchema_num] at he
        simp at he
      · rw [validateSchema_str] at he
        simp at he
      · rcases items with _ | it
        · rw [validateSchema_arr_none] at he
          simp at he
        · rw [validateSchema_arr] at he
          have hit : sizeOf it ≤ m := by
            simp at hs
            omega
          exact validateItems_prefix elems it (pathLabel path)
            (fun v pth e2 he2 => ih it hit v pth e2 he2) 0 e he
      · rw [validateSchema_obj] at he
        rcases List.mem_append.mp he with hreq | hprops
        · simp only [requiredErrors, List.mem_map, List.mem_filter] at hreq
          obtain ⟨f, _, hf⟩ := hreq
          exact ⟨": 缺少必需字段 \"" ++ f ++ "\"",
            by rw [← hf]; simp [String.append_assoc]⟩
        · rcases hp : properties with _ | props
          · rw [hp] at hprops
            simp at hprops
          · rw [hp] at hprops
            simp only at hprops
            refine validateProps_prefix fields props (pathLabel path) ?_ e hprops
            intro ps hname v pth e2 he2
            obtain ⟨name, hmem⟩ := hname
            have hsz : sizeOf ps ≤ m := by
              have h1 : sizeOf (name, ps) < sizeOf props := List.sizeOf_lt_of_mem hmem
              have h2 : sizeOf ps < sizeOf (name, ps) := by
                simp
              rw [hp] at hs
              simp at hs
              omega
            exact ih ps hsz v pth e2 he2
    · rw [validateSchema_mismatch _ _ _ hty] at he
      simp only [List.mem_singleton] at he
      exact ⟨": 期望类型 " ++ schema.typeName ++ "，实际类型 " ++ getValueType value,
        by rw [he]; simp [String.append_assoc]⟩

/-- Every error produced by `validateSchema` extends the current path
label. -/
theorem validateSchema_prefix (value : Value) (schema : Schema) (path : String) :
    ∀ e ∈ validateSchema value schema path, ∃ t, e = pathLabel path ++ t :=
  fun e he =>
    validateSchema_prefix_bounded (sizeOf schema) schema (le_refl _) value path e he

/-- C8, confirmed.  For a registered tool with an input schema and params
that fail validation, `invoke` returns a failure carrying the
`SchemaValidation` error with the validator's path-qualified messages (each
extends the root path label), emits exactly one `ToolFailed` event carrying
those messages, never emits `ToolInvoke`, never runs the executor, and
leaves the context untouched. -/
theorem c8_schema_validation_failure (registry : List (String × ToolRegistration))
    (toolId : String) (params : Value) (ctx : Context) (reg : ToolRegistration)
    (schema : Schema) (hreg : lookupA registry toolId = some reg)
    (hschema : reg.meta.inputSchema = some schema)
    (hbad : validateSchema params schema "" ≠ []) :
    (invoke registry toolId params ctx).result =
        some ⟨false, toolId, none,
          some (.schemaValidation ("工具 " ++ toolId ++ " 输入参数验证失败")
            (validateSchema params schema ""))⟩ ∧
      (invoke registry toolId params ctx).events =
        [⟨.toolFailed, toolId, validateSchema params schema ""⟩] ∧
      (invoke registry toolId params ctx).executorRan = false ∧
      (invoke registry toolId params ctx).ctx = ctx ∧
      (∀ ev ∈ (invoke registry toolId params ctx).events, ev.kind ≠ .toolInvoke) ∧
      (∀ msg ∈ validateSchema params schema "", ∃ t, msg = "root" ++ t) := by
  have hlen : ¬ (validateSchema params schema "").length = 0 := by
    simpa [List.length_eq_zero] using hbad
  have hinv : invoke registry toolId params ctx =
      ⟨some ⟨false, toolId, none,
          some (.schemaValidation ("工具 " ++ toolId ++ " 输入参数验证失败")
            (validateSchema params schema ""))⟩,
        ctx, [⟨.toolFailed, toolId, validateSchema params schema ""⟩], false⟩ := by
    simp [invoke, hreg, hschema, hlen]
  rw [hinv]
  refine ⟨rfl, rfl, rfl, rfl, ?_, ?_⟩
  · intro ev hev
    simp only [List.mem_singleton] at hev
    subst hev
    simp
  · intro msg hmsg
    have := validateSchema_prefix params schema "" msg hmsg
    simpa [pathLabel] using this

/-- C8, witness: tool `calc` with a number input schema invoked with a
string — the call fails with the SchemaValidation error and the executor
never runs. -/
theorem c8_schema_validation_failure_witness :
    (invoke [("calc", ⟨⟨"calc", "calc", .sync, none, some .snumber⟩,
          fun _ c => (c, .ok .vnull)⟩)] "calc" (.vstr "x") ⟨[], []⟩).result =
        some ⟨false, "calc", none,
          some (.schemaValidation ("工具 " ++ "calc" ++ " 输入参数验证失败")
            (validateSchema (.vstr "x") .snumber ""))⟩ ∧
      (invoke [("calc", ⟨⟨"calc", "calc", .sync, none, some .snumber⟩,
          fun _ c => (c, .ok .vnull)⟩)] "calc" (.vstr "x") ⟨[], []⟩).executorRan =
        false := by
  have h := c8_schema_validation_failure
    [("calc", ⟨⟨"calc", "calc", .sync, none, some .snumber⟩, fun _ c => (c, .ok .vnull)⟩)]
    "calc" (.vstr "x") ⟨[], []⟩
    ⟨⟨"calc", "calc", .sync, none, some .snumber⟩, fun _ c => (c, .ok .vnull)⟩
    .snumber rfl rfl
    (by rw [validateSchema_mismatch _ _ _ (by simp [getValueType, Schema.typeName])]; simp)
  exact ⟨h.1, h.2.2.1⟩


/-! ## C10: after-hooks and output commit only on success -/

/-- The retry loop only ever produces Success or Failed results. -/
theorem retryLoop_status (stepId : String) (body : ExecBody) (cs : Option Nat)
    (p : RetryPolicy) (input : Value) :
    ∀ fuel count ctx lastError,
      (retryLoop stepId body cs p input fuel count ctx lastError).1.status = .success ∨
        (retryLoop stepId body cs p input fuel count ctx lastError).1.status = .failed := by
  intro fuel
  induction fuel with
  | zero =>
    intro count ctx lastError
    rw [retryLoop_zero]
    right
    rfl
  | succ f ih =>
    intro count ctx lastError
    by_cases hc : count < p.maxRetries
    · by_cases hcan : cancelVisible cs count = true
      · rw [retryLoop_cancelled stepId body cs p input f count ctx lastError hc hcan]
        right
        rfl
      · simp only [Bool.not_eq_true] at hcan
        rcases hbody : body (count + 1 + 1) input ctx with ⟨ctx', out⟩
        cases out with
        | ok v =>
          rw [retryLoop_step_ok stepId body cs p input f count ctx ctx' lastError v hc hcan hbody]
          left
          rfl
        | error msg =>
          rw [retryLoop_step_err stepId body cs p input f count ctx ctx' lastError msg hc hcan hbody]
          exact ih (count + 1) ctx' (.stepExecution msg stepId)
    · rw [retryLoop_exhausted stepId body cs p input (f + 1) count ctx lastError hc]
      right
      rfl

/-- `executeWithRetry` produces only Success or Failed results, and its
trace contains no output commit and no after-hook run. -/
theorem executeWithRetry_facts (stepId : String) (body : ExecBody) (cs : Option Nat)
    (input : Value) (rp : Option RetryPolicy) (ctx : Context) :
    ((executeWithRetry stepId body cs input rp ctx).1.status = .success ∨
        (executeWithRetry stepId body cs input rp ctx).1.status = .failed) ∧
      (∀ id v, TraceEv.commit id v ∉ (executeWithRetry stepId body cs input rp ctx).2.2) ∧
      TraceEv.runAfterHooks ∉ (executeWithRetry stepId body cs input rp ctx).2.2 := by
  rcases hbody : body 1 input ctx with ⟨ctx', out⟩
  cases rp with
  | none =>
    cases out <;> simp [executeWithRetry, executeSingleAttempt, hbody]
  | some p =>
    cases out with
    | ok v =>
      simp [executeWithRetry, executeSingleAttempt, hbody]
    | error msg =>
      have hexp : executeWithRetry stepId body cs input (some p) ctx =
          ((retryLoop stepId body cs p input p.maxRetries 0 ctx'
              (.stepExecution msg stepId)).1,
            (retryLoop stepId body cs p input p.maxRetries 0 ctx'
              (.stepExecution msg stepId)).2.1,
            .stepStart 1 :: .invokeBody 1 ::
              (retryLoop stepId body cs p input p.maxRetries 0 ctx'
                (.stepExecution msg stepId)).2.2) := by
        simp [executeWithRetry, executeSingleAttempt, hbody]
      rw [hexp]
      obtain ⟨n, _, _, _, hnc, hna, _⟩ := retryLoop_shape stepId body cs p input
        p.maxRetries 0 ctx' (.stepExecution msg stepId)
      refine ⟨retryLoop_status stepId body cs p input p.maxRetries 0 ctx' _, ?_, ?_⟩
      · intro id v
        simpa using hnc id v
      · simpa using hna

/-- Frame property of `executeStepCore` (the hook/retry/commit pipeline of
`executeStep` once skip and pre-cancellation are out of the way). -/
theorem executeStepCore_frame (gB gA : List HookHandler) (cs : Option Nat)
    (step : StepDefinition) (ctx : Context) (body : ExecBody) (input : Value) :
    ((executeStepCore gB gA cs step ctx body input).1.status = .failed →
      (∀ v, TraceEv.commit step.id v ∉ (executeStepCore gB gA cs step ctx body input).2.2) ∧
        TraceEv.runAfterHooks ∉ (executeStepCore gB gA cs step ctx body input).2.2) ∧
    ((executeStepCore gB gA cs step ctx body input).1.status = .success →
      TraceEv.runAfterHooks ∈ (executeStepCore gB gA cs step ctx body input).2.2 ∧
        TraceEv.commit step.id (executeStepCore gB gA cs step ctx body input).1.output ∈
          (executeStepCore gB gA cs step ctx body input).2.2) ∧
    ((executeStepCore gB gA cs step ctx body input).1.status = .skipped →
      (∃ sp, step.skipPolicy = some sp ∧
        (executeStepCore gB gA cs step ctx body input).1.output = sp.defaultOutput ∧
        TraceEv.commit step.id sp.defaultOutput ∈
          (executeStepCore gB gA cs step ctx body input).2.2) ∧
        TraceEv.runAfterHooks ∉ (executeStepCore gB gA cs step ctx body input).2.2) ∧
    (∀ id v, TraceEv.commit id v ∈ (executeStepCore gB gA cs step ctx body input).2.2 →
      id = step.id ∧ v = (executeStepCore gB gA cs step ctx body input).1.output ∧
        ((executeStepCore gB gA cs step ctx body input).1.status = .success ∨
          (executeStepCore gB gA cs step ctx body input).1.status = .skipped)) := by
  by_cases hbs : (executeBeforeHooks gB step.id input ctx step.hooks).1.success = true
  · obtain ⟨hstat, hnc, hna⟩ := executeWithRetry_facts step.id body cs
      (((executeBeforeHooks gB step.id input ctx step.hooks).1.modifiedInput).getD input)
      step.retryPolicy (executeBeforeHooks gB step.id input ctx step.hooks).2
    by_cases hst : (executeWithRetry step.id body cs
        (((executeBeforeHooks gB step.id input ctx step.hooks).1.modifiedInput).getD input)
        step.retryPolicy (executeBeforeHooks gB step.id input ctx step.hooks).2).1.status =
        .success
    · have hr : executeStepCore gB gA cs step ctx body input =
          ((executeWithRetry step.id body cs
              (((executeBeforeHooks gB step.id input ctx step.hooks).1.modifiedInput).getD input)
              step.retryPolicy (executeBeforeHooks gB step.id input ctx step.hooks).2).1,
            (executeAfterHooks gA step.id
              (((executeBeforeHooks gB step.id input ctx step.hooks).1.modifiedInput).getD input)
              (executeWithRetry step.id body cs
                (((executeBeforeHooks gB step.id input ctx step.hooks).1.modifiedInput).getD input)
                step.retryPolicy (executeBeforeHooks gB step.id input ctx step.hooks).2).1.output
              (executeWithRetry step.id body cs
                (((executeBeforeHooks gB step.id input ctx step.hooks).1.modifiedInput).getD input)
                step.retryPolicy (executeBeforeHooks gB step.id input ctx step.hooks).2).2.1
              step.hooks).2.setStepOutput step.id
              (executeWithRetry step.id body cs
                (((executeBeforeHooks gB step.id input ctx step.hooks).1.modifiedInput).getD input)
                step.retryPolicy (executeBeforeHooks gB step.id input ctx step.hooks).2).1.output,
            (executeWithRetry step.id body cs
              (((executeBeforeHooks gB step.id input ctx step.hooks).1.modifiedInput).getD input)
              step.retryPolicy (executeBeforeHooks gB step.id input ctx step.hooks).2).2.2 ++
              [.runAfterHooks, .commit step.id
                (executeWithRetry step.id body cs
                  (((executeBeforeHooks gB step.id input ctx step.hooks).1.modifiedInput).getD input)
                  step.retryPolicy (executeBeforeHooks gB step.id input ctx step.hooks).2).1.output]) := by
        simp [executeStepCore, hbs, hst]
      rw [hr]
      refine ⟨?_, ?_, ?_, ?_⟩
      · intro h
        rw [hst] at h
        cases h
      · intro _
        constructor
        · simp
        · simp
      · intro h
        rw [hst] at h
        cases h
      · intro id v hv
        rcases List.mem_append.mp hv with hin | hin
        · exact absurd hin (hnc id v)
        · simp only [List.mem_cons, List.not_mem_nil, or_false] at hin
          rcases hin with h1 | h2
          · exact absurd h1 (by simp)
          · cases h2
            exact ⟨rfl, rfl, Or.inl hst⟩
    · have hr : executeStepCore gB gA cs step ctx body input =
          executeWithRetry step.id body cs
            (((executeBeforeHooks gB step.id input ctx step.hooks).1.modifiedInput).getD input)
            step.retryPolicy (executeBeforeHooks gB step.id input ctx step.hooks).2 := by
        simp [executeStepCore, hbs, hst]
      rw [hr]
      have hfail : (executeWithRetry step.id body cs
          (((executeBeforeHooks gB step.id input ctx step.hooks).1.modifiedInput).getD input)
          step.retryPolicy (executeBeforeHooks gB step.id input ctx step.hooks).2).1.status =
          .failed := by
        rcases hstat with h | h
        · exact absurd h hst
        · exact h
      refine ⟨fun _ => ⟨fun v => hnc step.id v, hna⟩, fun h => absurd h hst, ?_, ?_⟩
      · intro h
        rw [hfail] at h
        cases h
      · intro id v hv
        exact absurd hv (hnc id v)
  · simp only [Bool.not_eq_true] at hbs
    have hr : executeStepCore gB gA cs step ctx body input =
        (⟨step.id, .failed, .vundefined,
          ((executeBeforeHooks gB step.id input ctx step.hooks).1.error).map .hookError,
          none⟩,
          (executeBeforeHooks gB step.id input ctx step.hooks).2,
          [.stepFailedBeforeHook]) := by
      simp [executeStepCore, hbs]
    rw [hr]
    refine ⟨fun _ => ⟨fun v => by simp, by simp⟩, fun h => by simp at h,
      fun h => by simp at h, ?_⟩
    intro id v hv
    simp only [List.mem_singleton] at hv
    exact absurd hv (by simp)

/-- C10, confirmed.  `executeStep` runs the after-hooks and commits an
output to `ctx.stepOutputs[stepId]` only when the result is Success; a
Failed result (from any phase: pre-cancellation, before-hook failure, or a
failed attempt chain) triggers neither, and a triggered skip commits the
skip policy's default output without running after-hooks.  Every commit in
the trace is for this step's id and is the result's output, under a Success
or Skipped status. -/
theorem c10_output_commit_frame (gB gA : List HookHandler) (cs : Option Nat)
    (step : StepDefinition) (ctx : Context) (body : ExecBody) (input : Value) :
    ((executeStep gB gA cs step ctx body input).1.status = .failed →
      (∀ v, TraceEv.commit step.id v ∉ (executeStep gB gA cs step ctx body input).2.2) ∧
        TraceEv.runAfterHooks ∉ (executeStep gB gA cs step ctx body input).2.2) ∧
    ((executeStep gB gA cs step ctx body input).1.status = .success →
      TraceEv.runAfterHooks ∈ (executeStep gB gA cs step ctx body input).2.2 ∧
        TraceEv.commit step.id (executeStep gB gA cs step ctx body input).1.output ∈
          (executeStep gB gA cs step ctx body input).2.2) ∧
    ((executeStep gB gA cs step ctx body input).1.status = .skipped →
      (∃ sp, step.skipPolicy = some sp ∧
        (executeStep gB gA cs step ctx body input).1.output = sp.defaultOutput ∧
        TraceEv.commit step.id sp.defaultOutput ∈
          (executeStep gB gA cs step ctx body input).2.2) ∧
        TraceEv.runAfterHooks ∉ (executeStep gB gA cs step ctx body input).2.2) ∧
    (∀ id v, TraceEv.commit id v ∈ (executeStep gB gA cs step ctx body input).2.2 →
      id = step.id ∧ v = (executeStep gB gA cs step ctx body input).1.output ∧
        ((executeStep gB gA cs step ctx body input).1.status = .success ∨
          (executeStep gB gA cs step ctx body input).1.status = .skipped)) := by
  by_cases hcv : cancelVisible cs 0 = true
  · have hr : executeStep gB gA cs step ctx body input =
        (⟨step.id, .failed, .vundefined, some .cancelledStep, none⟩, ctx, []) := by
      simp [executeStep, hcv]
    rw [hr]
    refine ⟨fun _ => by simp, fun h => by simp at h, fun h => by simp at h, ?_⟩
    intro id v hv
    simp at hv
  · simp only [Bool.not_eq_true] at hcv
    obtain hsp | ⟨sp, hsp⟩ : step.skipPolicy = none ∨ ∃ sp, step.skipPolicy = some sp := by
      cases step.skipPolicy
      · exact Or.inl rfl
      · exact Or.inr ⟨_, rfl⟩
    · have hr : executeStep gB gA cs step ctx body input =
          executeStepCore gB gA cs step ctx body input := by
        simp [executeStep, hcv, hsp]
      rw [hr]
      exact executeStepCore_frame gB gA cs step ctx body input
    · by_cases hcond : sp.condition ctx = true
      · have hr : executeStep gB gA cs step ctx body input =
            (⟨step.id, .skipped, sp.defaultOutput, none, none⟩,
              ctx.setStepOutput step.id sp.defaultOutput,
              [.stepSkip, .commit step.id sp.defaultOutput]) := by
          simp [executeStep, hcv, hsp, hcond]
        rw [hr]
        refine ⟨fun h => by simp at h, fun h => by simp at h,
          fun _ => ⟨⟨sp, hsp, rfl, by simp⟩, by simp⟩, ?_⟩
        intro id v hv
        simp only [List.mem_cons, List.not_mem_nil, or_false] at hv
        rcases hv with h1 | h2
        · exact absurd h1 (by simp)
        · cases h2
          exact ⟨rfl, rfl, Or.inr rfl⟩
      · simp only [Bool.not_eq_true] at hcond
        have hr : executeStep gB gA cs step ctx body input =
            executeStepCore gB gA cs step ctx body input := by
          simp [executeStep, hcv, hsp, hcond]
        rw [hr]
        exact executeStepCore_frame gB gA cs step ctx body input

/-- C10, witness: a plain step whose body throws — the result is Failed, so
no after-hooks marker and no commit appear in the trace. -/
theorem c10_output_commit_frame_witness :
    (∀ v, TraceEv.commit "s1" v ∉
      (executeStep [] [] none ⟨"s1", "s1", "task", none, none, none, none⟩
        ⟨[], []⟩ (fun _ _ c => (c, .error "boom")) .vundefined).2.2) ∧
    TraceEv.runAfterHooks ∉
      (executeStep [] [] none ⟨"s1", "s1", "task", none, none, none, none⟩
        ⟨[], []⟩ (fun _ _ c => (c, .error "boom")) .vundefined).2.2 :=
  (c10_output_commit_frame [] [] none ⟨"s1", "s1", "task", none, none, none, none⟩
    ⟨[], []⟩ (fun _ _ c => (c, .error "boom")) .vundefined).1 rfl

/-! ## C6: DAG validation and topological sort -/

/-- Lookup after mapping the stored values of an association list. -/
theorem lookupA_map_value {α β : Type} (g : α → β) (m : List (String × α)) (k : String) :
    lookupA (m.map (fun p => (p.1, g p.2))) k = (lookupA m k).map g := by
  induction m with
  | nil => rfl
  | cons hd rest ih =>
    by_cases h : hd.1 = k
    · simp [lookupA, h]
    · simp [lookupA, h, ih]

/-- A successful lookup yields an entry of the list. -/
theorem lookupA_some_mem {α : Type} (m : List (String × α)) (k : String) (v : α)
    (h : lookupA m k = some v) : (k, v) ∈ m := by
  induction m with
  | nil => simp [lookupA] at h
  | cons hd rest ih =>
    rw [lookupA] at h
    by_cases he : hd.1 = k
    · rw [if_pos he] at h
      injection h with h2
      have heq : (k, v) = hd := by
        obtain ⟨a, b⟩ := hd
        simp only at he h2
        rw [he, h2]
      exact heq ▸ List.mem_cons_self (k, v) rest
    · rw [if_neg he] at h
      exact List.mem_cons_of_mem hd (ih h)

/-- With duplicate-free keys, every entry is found by lookup. -/
theorem lookupA_eq_some_of_mem_nodup {α : Type} (m : List (String × α))
    (hnd : (m.map Prod.fst).Nodup) (p : String × α) (hp : p ∈ m) :
    lookupA m p.1 = some p.2 := by
  induction m with
  | nil => simp at hp
  | cons hd rest ih =>
    simp only [List.map_cons, List.nodup_cons] at hnd
    rcases List.mem_cons.mp hp with h1 | h2
    · subst h1
      simp [lookupA]
    · have hne : hd.1 ≠ p.1 := by
        intro he
        exact hnd.1 (he ▸ List.mem_map.mpr ⟨p, h2, rfl⟩)
      rw [lookupA, if_neg hne]
      exact ih hnd.2 h2

/-- A key occurring in the key list is found by lookup. -/
theorem lookupA_isSome_of_mem_keys {α : Type} (m : List (String × α)) (k : String)
    (h : k ∈ m.map Prod.fst) : ∃ v, lookupA m k = some v := by
  induction m with
  | nil => simp at h
  | cons hd rest ih =>
    by_cases he : hd.1 = k
    · exact ⟨hd.2, by rw [lookupA, if_pos he]⟩
    · simp only [List.map_cons, List.mem_cons] at h
      rcases h with h1 | h2
      · exact absurd h1.symm he
      · obtain ⟨v, hv⟩ := ih h2
        exact ⟨v, by rw [lookupA, if_neg he, hv]⟩

/-- `modifyA` preserves the key list. -/
theorem keys_modifyA {α : Type} (m : List (String × α)) (k : String) (f : α → α) :
    (modifyA m k f).map Prod.fst = m.map Prod.fst := by
  induction m with
  | nil => rfl
  | cons hd rest ih =>
    by_cases h : hd.1 = k
    · simp [modifyA, h]
    · simp [modifyA, h, ih]

/-- Lookup through `modifyA`: the modified key's value is mapped, others are
untouched. -/
theorem lookupA_modifyA {α : Type} (m : List (String × α)) (k k' : String) (f : α → α) :
    lookupA (modifyA m k f) k' =
      if k = k' then (lookupA m k').map f else lookupA m k' := by
  induction m with
  | nil => simp [modifyA, lookupA]
  | cons hd rest ih =>
    by_cases h : hd.1 = k
    · by_cases h2 : k = k'
      · subst h2
        simp [modifyA, lookupA, h]
      · have : hd.1 ≠ k' := h ▸ h2
        simp [modifyA, lookupA, h, this, if_neg h2, ih]
    · by_cases h2 : hd.1 = k'
      · subst h2
        have : ¬ k = hd.1 := fun he => h he.symm
        simp [modifyA, lookupA, h, this]
      · simp [modifyA, lookupA, h, h2, ih]

/-- A duplicate-free list contained in another list is no longer than it. -/
theorem nodup_subset_length_le (l L : List String) (hnd : l.Nodup) (hsub : l ⊆ L) :
    l.length ≤ L.length :=
  (List.subperm_of_subset hnd hsub).length_le

/-- First occurrence of a member of a prefix lies inside the prefix. -/
theorem indexOf_lt_of_mem_take (a : String) :
    ∀ (l : List String) (j : Nat), a ∈ l.take j → l.indexOf a < j := by
  intro l
  induction l with
  | nil => simp
  | cons hd tl ih =>
    intro j h
    match j with
    | 0 => simp at h
    | j + 1 =>
      rw [List.take_succ_cons] at h
      rcases List.mem_cons.mp h with h1 | h2
      · subst h1
        simp [List.indexOf_cons_self]
      · by_cases hx : a = hd
        · subst hx
          simp [List.indexOf_cons_self]
        · rw [List.indexOf_cons_ne _ (fun hh => hx hh.symm)]
          exact Nat.succ_lt_succ (ih j h2)

/-- Membership in the pending-dependency list. -/
theorem mem_pendingDeps (dag : DAG) (sorted : List String) (id a : String) :
    a ∈ pendingDeps dag sorted id ↔ a ∈ depsOf dag id ∧ a ∉ sorted := by
  simp [pendingDeps]

/-- One Kahn relaxation pass over the edge map with duplicate-free keys:
lookups outside the edge keys are untouched, the tracked degree of each edge
key drops by one exactly when `current` is among its dependencies, and the
pushed nodes are the edge keys whose tracked degree was 1 and whose
dependencies contain `current`, in edge order. -/
theorem relax_spec (current : String) :
    ∀ (edges : List (String × List String)) (inDeg : List (String × Int)),
      (edges.map Prod.fst).Nodup →
      (∀ p ∈ edges, ∃ v, lookupA inDeg p.1 = some v) →
      (∀ k, k ∉ edges.map Prod.fst →
          lookupA (relax edges current inDeg).1 k = lookupA inDeg k) ∧
        (∀ p ∈ edges, lookupA (relax edges current inDeg).1 p.1 =
          (lookupA inDeg p.1).map (fun v => if current ∈ p.2 then v - 1 else v)) ∧
        (relax edges current inDeg).2 =
          (edges.filter (fun p => decide (current ∈ p.2) &&
            decide (lookupA inDeg p.1 = some 1))).map Prod.fst := by
  intro edges
  induction edges with
  | nil =>
    intro inDeg _ _
    exact ⟨fun k _ => rfl, fun p hp => absurd hp (List.not_mem_nil p), rfl⟩
  | cons hd rest ih =>
    intro inDeg hnd hall
    obtain ⟨id, ds⟩ := hd
    simp only [List.map_cons, List.nodup_cons] at hnd
    obtain ⟨hid, hndr⟩ := hnd
    have hrx0 : relax ((id, ds) :: rest) current inDeg =
        (if current ∈ ds then
          match lookupA inDeg id with
          | some d =>
            ((relax rest current (setA inDeg id (d - 1))).1,
              (if d - 1 = 0 then [id] else []) ++
                (relax rest current (setA inDeg id (d - 1))).2)
          | none => relax rest current inDeg
        else relax rest current inDeg) := rfl
    by_cases hcd : current ∈ ds
    · obtain ⟨d, hdv⟩ := hall (id, ds) (List.mem_cons_self _ _)
      have hrx : relax ((id, ds) :: rest) current inDeg =
          ((relax rest current (setA inDeg id (d - 1))).1,
            (if d - 1 = 0 then [id] else []) ++
              (relax rest current (setA inDeg id (d - 1))).2) := by
        rw [hrx0, if_pos hcd, hdv]
      have hall2 : ∀ p ∈ rest, ∃ v, lookupA (setA inDeg id (d - 1)) p.1 = some v := by
        intro p hp
        have hne : p.1 ≠ id := fun he => hid (he ▸ List.mem_map.mpr ⟨p, hp, rfl⟩)
        rw [lookupA_setA_ne inDeg id p.1 (d - 1) hne]
        exact hall p (List.mem_cons_of_mem _ hp)
      obtain ⟨ih1, ih2, ih3⟩ := ih (setA inDeg id (d - 1)) hndr hall2
      refine ⟨?_, ?_, ?_⟩
      · intro k hk
        simp only [List.map_cons, List.mem_cons, not_or] at hk
        rw [hrx]
        exact (ih1 k hk.2).trans (lookupA_setA_ne inDeg id k (d - 1) (fun he => hk.1 he))
      · intro p hp
        rcases List.mem_cons.mp hp with h1 | h2
        · subst h1
          rw [hrx]
          have := (ih1 id hid).trans (lookupA_setA_self inDeg id (d - 1))
          rw [this, hdv]
          simp [hcd]
        · have hne : p.1 ≠ id := fun he => hid (he ▸ List.mem_map.mpr ⟨p, h2, rfl⟩)
          rw [hrx]
          rw [ih2 p h2, lookupA_setA_ne inDeg id p.1 (d - 1) hne]
      · rw [hrx]
        have hcongr : (rest.filter (fun p => decide (current ∈ p.2) &&
            decide (lookupA (setA inDeg id (d - 1)) p.1 = some 1))) =
            (rest.filter (fun p => decide (current ∈ p.2) &&
              decide (lookupA inDeg p.1 = some 1))) := by
          apply List.filter_congr
          intro p hp
          have hne : p.1 ≠ id := fun he => hid (he ▸ List.mem_map.mpr ⟨p, hp, rfl⟩)
          rw [lookupA_setA_ne inDeg id p.1 (d - 1) hne]
        rw [List.filter_cons]
        by_cases hd1 : d = 1
        · have hc : (decide (current ∈ ds) && decide (lookupA inDeg (id, ds).1 = some 1)) = true := by
            simp [hcd, hdv, hd1]
          rw [if_pos hc]
          have : d - 1 = 0 := by omega
          rw [if_pos this]
          simp only [List.map_cons]
          rw [ih3, hcongr]
          rfl
        · have hc : (decide (current ∈ ds) && decide (lookupA inDeg (id, ds).1 = some 1)) = false := by
            simp only [Bool.and_eq_false_iff, decide_eq_false_iff_not]
            right
            rw [hdv]
            intro hcon
            exact hd1 (by injection hcon)
          have hno : ¬ d - 1 = 0 := by omega
          rw [if_neg hno, hc, if_neg Bool.false_ne_true]
          simp only [List.nil_append]
          rw [ih3, hcongr]
    · have hrx : relax ((id, ds) :: rest) current inDeg = relax rest current inDeg := by
        rw [hrx0, if_neg hcd]
      obtain ⟨ih1, ih2, ih3⟩ := ih inDeg hndr
        (fun p hp => hall p (List.mem_cons_of_mem _ hp))
      refine ⟨?_, ?_, ?_⟩
      · intro k hk
        simp only [List.map_cons, List.mem_cons, not_or] at hk
        rw [hrx]
        exact ih1 k hk.2
      · intro p hp
        rcases List.mem_cons.mp hp with h1 | h2
        · subst h1
          rw [hrx, ih1 id hid]
          simp [hcd]
        · rw [hrx]
          exact ih2 p h2
      · rw [hrx, List.filter_cons]
        have hc : (decide (current ∈ ds) && decide (lookupA inDeg (id, ds).1 = some 1)) = false := by
          simp [hcd]
        rw [hc, if_neg Bool.false_ne_true]
        exact ih3

/-- Before anything is output, every dependency is pending. -/
theorem pendingDeps_nil (dag : DAG) (id : String) :
    pendingDeps dag [] id = depsOf dag id := by
  simp [pendingDeps]

/-- Appending `current` to the output removes it from every pending list. -/
theorem pendingDeps_append (dag : DAG) (sorted : List String) (current id : String)
    (hnd : (depsOf dag id).Nodup) :
    pendingDeps dag (sorted ++ [current]) id = (pendingDeps dag sorted id).erase current := by
  have h1 : pendingDeps dag (sorted ++ [current]) id =
      (pendingDeps dag sorted id).filter (fun a => a != current) := by
    rw [pendingDeps, pendingDeps]
    conv_rhs => rw [List.filter_filter]
    apply List.filter_congr
    intro a _
    by_cases h1 : a ∈ sorted <;> by_cases h2 : a = current <;> simp [h1, h2]
  have hnd2 : (pendingDeps dag sorted id).Nodup := hnd.filter _
  rw [h1]
  exact (List.Nodup.erase_eq_filter hnd2 current).symm

/-- Pending count after one Kahn pop, as the tracked integers compute it. -/
theorem pendingDeps_append_length (dag : DAG) (sorted : List String) (current id : String)
    (hnd : (depsOf dag id).Nodup) (hcs : current ∉ sorted) :
    ((pendingDeps dag (sorted ++ [current]) id).length : Int) =
      ((pendingDeps dag sorted id).length : Int) -
        (if current ∈ depsOf dag id then 1 else 0) := by
  rw [pendingDeps_append dag sorted current id hnd]
  by_cases hc : current ∈ depsOf dag id
  · have hm : current ∈ pendingDeps dag sorted id := (mem_pendingDeps _ _ _ _).mpr ⟨hc, hcs⟩
    rw [List.length_erase_of_mem hm, if_pos hc]
    have hp : 0 < (pendingDeps dag sorted id).length :=
      List.length_pos.mpr (List.ne_nil_of_mem hm)
    omega
  · have hm : current ∉ pendingDeps dag sorted id := fun h => hc ((mem_pendingDeps _ _ _ _).mp h).1
    rw [List.erase_of_not_mem hm, if_neg hc]
    omega

/-- A length-one list is the singleton of any of its members. -/
theorem eq_singleton_of_length_one_mem {α : Type} (l : List α) (a : α)
    (hlen : l.length = 1) (hm : a ∈ l) : l = [a] := by
  match l with
  | [x] =>
    simp only [List.mem_singleton] at hm
    rw [hm]

/-- No dependency is pending exactly when all dependencies are in the output. -/
theorem pendingDeps_eq_nil_iff (dag : DAG) (S : List String) (id : String) :
    pendingDeps dag S id = [] ↔ ∀ a ∈ depsOf dag id, a ∈ S := by
  rw [pendingDeps, List.filter_eq_nil_iff]
  constructor
  · intro h a ha
    have := h a ha
    simp only [decide_eq_true_eq] at this
    exact Decidable.not_not.mp this
  · intro h a ha
    simp only [decide_eq_true_eq, Decidable.not_not]
    exact h a ha

/-- One iteration of the Kahn `while` loop preserves the invariant: popping
the queue head onto the output and relaxing its out-edges yields the invariant
for the extended output. -/
theorem KInv_step (dag : DAG) (hD : DWF dag) (inDeg : List (String × Int))
    (current : String) (rest sorted : List String)
    (hinv : KInv dag inDeg (current :: rest) sorted) :
    KInv dag (relax dag.edges current inDeg).1
      (rest ++ (relax dag.edges current inDeg).2) (sorted ++ [current]) := by
  obtain ⟨-, hnodupN, hkeys, hdeps, -⟩ := hD
  obtain ⟨hnd, hsortedN, hqueueN, hcount, hqueue, hord⟩ := hinv
  have hcurN : current ∈ nodeIds dag := hqueueN (List.mem_cons_self _ _)
  have hdisj : List.Disjoint sorted (current :: rest) := (List.nodup_append.mp hnd).2.2
  have hcurS : current ∉ sorted := fun h => hdisj h (List.mem_cons_self _ _)
  have hknodup : (dag.edges.map Prod.fst).Nodup := by rw [hkeys]; exact hnodupN
  have hdepsOf : ∀ p ∈ dag.edges, depsOf dag p.1 = p.2 := by
    intro p hp
    rw [depsOf, lookupA_eq_some_of_mem_nodup dag.edges hknodup p hp]
    rfl
  have hdepnd : ∀ id ∈ nodeIds dag, (depsOf dag id).Nodup := by
    intro id hid
    rw [← hkeys] at hid
    obtain ⟨p, hp, hp1⟩ := List.mem_map.mp hid
    rw [← hp1, hdepsOf p hp]
    exact (hdeps p hp).1
  have hall : ∀ p ∈ dag.edges, ∃ v, lookupA inDeg p.1 = some v := by
    intro p hp
    have hm : p.1 ∈ nodeIds dag := by
      rw [← hkeys]
      exact List.mem_map.mpr ⟨p, hp, rfl⟩
    exact ⟨_, hcount p.1 hm⟩
  obtain ⟨hr1, hr2, hr3⟩ := relax_spec current dag.edges inDeg hknodup hall
  have hlook : ∀ id ∈ nodeIds dag, lookupA (relax dag.edges current inDeg).1 id =
      (lookupA inDeg id).map (fun v => if current ∈ depsOf dag id then v - 1 else v) := by
    intro id hid
    rw [← hkeys] at hid
    obtain ⟨p, hp, hp1⟩ := List.mem_map.mp hid
    subst hp1
    rw [hr2 p hp, hdepsOf p hp]
  have hpushx : ∀ x, x ∈ (relax dag.edges current inDeg).2 ↔
      (x ∈ nodeIds dag ∧ current ∈ depsOf dag x ∧ (pendingDeps dag sorted x).length = 1) := by
    intro x
    rw [hr3]
    constructor
    · intro hx
      obtain ⟨p, hpf, hp1⟩ := List.mem_map.mp hx
      have hpe : p ∈ dag.edges := List.mem_of_mem_filter hpf
      have hcond := List.of_mem_filter hpf
      simp only [Bool.and_eq_true, decide_eq_true_eq] at hcond
      obtain ⟨hc1, hc2⟩ := hcond
      have hxN : p.1 ∈ nodeIds dag := by
        rw [← hkeys]
        exact List.mem_map.mpr ⟨p, hpe, rfl⟩
      subst hp1
      refine ⟨hxN, ?_, ?_⟩
      · rw [hdepsOf p hpe]
        exact hc1
      · have hc := hcount p.1 hxN
        rw [hc] at hc2
        injection hc2 with hc2
        omega
    · rintro ⟨hxN, hcx, hlen⟩
      have hxk : x ∈ dag.edges.map Prod.fst := by rw [hkeys]; exact hxN
      obtain ⟨p, hp, hp1⟩ := List.mem_map.mp hxk
      apply List.mem_map.mpr
      refine ⟨p, List.mem_filter.mpr ⟨hp, ?_⟩, hp1⟩
      simp only [Bool.and_eq_true, decide_eq_true_eq]
      constructor
      · rw [← hdepsOf p hp, hp1]
        exact hcx
      · rw [hp1, hcount x hxN, hlen]
        rfl
  have hpend0 : pendingDeps dag sorted current = [] :=
    (hqueue current hcurN hcurS).mp (List.mem_cons_self _ _)
  have hdepsub : ∀ a ∈ depsOf dag current, a ∈ sorted :=
    (pendingDeps_eq_nil_iff dag sorted current).mp hpend0
  have hsorted0 : ∀ x ∈ sorted, pendingDeps dag sorted x = [] := by
    intro x hx
    obtain ⟨⟨i, hi⟩, hg⟩ := List.mem_iff_get.mp hx
    apply (pendingDeps_eq_nil_iff dag sorted x).mpr
    intro a ha
    rw [← hg] at ha
    exact List.take_subset i sorted (hord i hi a ha)
  have hPdisj : ∀ x ∈ (relax dag.edges current inDeg).2,
      x ∉ sorted ∧ x ≠ current ∧ x ∉ rest := by
    intro x hx
    obtain ⟨hxN, hcx, hlen⟩ := (hpushx x).mp hx
    refine ⟨?_, ?_, ?_⟩
    · intro hxs
      rw [hsorted0 x hxs] at hlen
      simp at hlen
    · intro he
      subst he
      rw [hpend0] at hlen
      simp at hlen
    · intro hxr
      have hxq : x ∈ current :: rest := List.mem_cons_of_mem _ hxr
      have hxs : x ∉ sorted := fun hs => hdisj hs hxq
      rw [(hqueue x hxN hxs).mp hxq] at hlen
      simp at hlen
  have hPnodup : (relax dag.edges current inDeg).2.Nodup := by
    rw [hr3]
    exact hknodup.sublist ((List.filter_sublist _).map Prod.fst)
  refine ⟨?_, ?_, ?_, ?_, ?_, ?_⟩
  · rw [← List.append_assoc]
    apply List.nodup_append.mpr
    refine ⟨?_, hPnodup, ?_⟩
    · rw [← List.append_cons]
      exact hnd
    · intro x hx hxP
      obtain ⟨h1, h2, h3⟩ := hPdisj x hxP
      rcases List.mem_append.mp hx with hx1 | hx2
      · rcases List.mem_append.mp hx1 with hs | hc
        · exact h1 hs
        · exact h2 (List.mem_singleton.mp hc)
      · exact h3 hx2
  · intro x hx
    rcases List.mem_append.mp hx with h1 | h2
    · exact hsortedN h1
    · rw [List.mem_singleton.mp h2]
      exact hcurN
  · intro x hx
    rcases List.mem_append.mp hx with h1 | h2
    · exact hqueueN (List.mem_cons_of_mem _ h1)
    · exact ((hpushx x).mp h2).1
  · intro id hid
    rw [hlook id hid, hcount id hid, Option.map_some']
    have hlen := pendingDeps_append_length dag sorted current id (hdepnd id hid) hcurS
    by_cases hc : current ∈ depsOf dag id
    · rw [if_pos hc] at hlen ⊢
      exact congrArg some (by omega)
    · rw [if_neg hc] at hlen ⊢
      exact congrArg some (by omega)
  · intro id hid hids
    have hidS : id ∉ sorted := fun h => hids (List.mem_append.mpr (Or.inl h))
    have hidC : id ≠ current := fun h =>
      hids (List.mem_append.mpr (Or.inr (by rw [h]; exact List.mem_singleton.mpr rfl)))
    rw [pendingDeps_append dag sorted current id (hdepnd id hid)]
    constructor
    · intro hq
      rcases List.mem_append.mp hq with h1 | h2
      · rw [(hqueue id hid hidS).mp (List.mem_cons_of_mem _ h1)]
        rfl
      · obtain ⟨-, hcx, hlen⟩ := (hpushx id).mp h2
        have hm : current ∈ pendingDeps dag sorted id :=
          (mem_pendingDeps _ _ _ _).mpr ⟨hcx, hcurS⟩
        rw [eq_singleton_of_length_one_mem _ current hlen hm]
        exact List.erase_cons_head current []
    · intro hnil
      by_cases hc : current ∈ depsOf dag id
      · have hm : current ∈ pendingDeps dag sorted id :=
          (mem_pendingDeps _ _ _ _).mpr ⟨hc, hcurS⟩
        have hlen1 : (pendingDeps dag sorted id).length = 1 := by
          have he := List.length_erase_of_mem hm
          rw [hnil] at he
          have hp : 0 < (pendingDeps dag sorted id).length :=
            List.length_pos.mpr (List.ne_nil_of_mem hm)
          simp only [List.length_nil] at he
          omega
        exact List.mem_append.mpr (Or.inr ((hpushx id).mpr ⟨hid, hc, hlen1⟩))
      · have hm : current ∉ pendingDeps dag sorted id := fun h =>
          hc ((mem_pendingDeps _ _ _ _).mp h).1
        rw [List.erase_of_not_mem hm] at hnil
        rcases List.mem_cons.mp ((hqueue id hid hidS).mpr hnil) with h1 | h2
        · exact absurd h1 hidC
        · exact List.mem_append.mpr (Or.inl h2)
  · intro i hi a ha
    by_cases hilt : i < sorted.length
    · have hget : (sorted ++ [current]).get ⟨i, hi⟩ = sorted.get ⟨i, hilt⟩ := by
        simp [List.getElem_append_left, hilt]
      rw [hget] at ha
      rw [List.take_append_of_le_length (le_of_lt hilt)]
      exact hord i hilt a ha
    · have hieq : i = sorted.length := by
        simp only [List.length_append, List.length_singleton] at hi
        omega
      subst hieq
      have hget : (sorted ++ [current]).get ⟨sorted.length, hi⟩ = current := by simp
      rw [hget] at ha
      rw [List.take_left]
      exact hdepsub a ha

/-- With enough fuel the Kahn loop always drains its queue and ends in an
invariant-satisfying state.  The callers' fuel `nodes.length + 1` is enough
because the output grows by one node per iteration and never repeats one. -/
theorem kahnLoop_drain (dag : DAG) (hD : DWF dag) :
    ∀ (fuel : Nat) (queue : List String) (inDeg : List (String × Int)) (sorted : List String),
      KInv dag inDeg queue sorted →
      (nodeIds dag).length < fuel + sorted.length →
      ∃ inDeg2 s2, kahnLoop dag.edges fuel inDeg queue sorted = (inDeg2, [], s2) ∧
        KInv dag inDeg2 [] s2 := by
  intro fuel
  induction fuel with
  | zero =>
    intro queue inDeg sorted hinv hlt
    exfalso
    have h1 : sorted.Nodup := (List.nodup_append.mp hinv.1).1
    have h2 := nodup_subset_length_le sorted (nodeIds dag) h1 hinv.2.1
    omega
  | succ fuel ih =>
    intro queue inDeg sorted hinv hlt
    rcases queue with _ | ⟨current, rest⟩
    · exact ⟨inDeg, sorted, rfl, hinv⟩
    · have hstep : kahnLoop dag.edges (fuel + 1) inDeg (current :: rest) sorted =
          kahnLoop dag.edges fuel (relax dag.edges current inDeg).1
            (rest ++ (relax dag.edges current inDeg).2) (sorted ++ [current]) := rfl
      rw [hstep]
      apply ih _ _ _ (KInv_step dag hD inDeg current rest sorted hinv)
      simp only [List.length_append, List.length_singleton]
      omega

/-- The seeding phase of `detectCycle`/`topologicalSort` establishes the Kahn
invariant: tracked degrees copy the built in-degrees and the queue takes the
zero-in-degree nodes, in node order. -/
theorem KInv_init (dag : DAG) (hD : DWF dag) :
    KInv dag (dag.nodes.map (fun p => (p.1, p.2.inDegree)))
      ((dag.nodes.filter (fun p => p.2.inDegree = 0)).map Prod.fst) [] := by
  obtain ⟨-, hnodupN, hkeys, hdeps, hdeg⟩ := hD
  have hqsub : ((dag.nodes.filter (fun p => p.2.inDegree = 0)).map Prod.fst) ⊆ nodeIds dag := by
    intro x hx
    obtain ⟨p, hp, hp1⟩ := List.mem_map.mp hx
    exact hp1 ▸ List.mem_map.mpr ⟨p, List.mem_of_mem_filter hp, rfl⟩
  have hqnodup : (((dag.nodes.filter (fun p => p.2.inDegree = 0))).map Prod.fst).Nodup :=
    hnodupN.sublist ((List.filter_sublist _).map Prod.fst)
  refine ⟨?_, ?_, hqsub, ?_, ?_, ?_⟩
  · simpa using hqnodup
  · intro x hx
    simp at hx
  · intro id hid
    obtain ⟨p, hpn, hp1⟩ := List.mem_map.mp hid
    subst hp1
    rw [lookupA_map_value (fun n => n.inDegree) dag.nodes p.1,
      lookupA_eq_some_of_mem_nodup dag.nodes hnodupN p hpn, Option.map_some',
      hdeg p hpn, pendingDeps_nil]
  · intro id hid hfalse
    rw [pendingDeps_nil]
    constructor
    · intro hq
      obtain ⟨p, hpf, hp1⟩ := List.mem_map.mp hq
      have hp := List.mem_of_mem_filter hpf
      have h0 := List.of_mem_filter hpf
      simp only [decide_eq_true_eq] at h0
      rw [hdeg p hp] at h0
      subst hp1
      have hz : (depsOf dag p.1).length = 0 := by omega
      exact List.eq_nil_of_length_eq_zero hz
    · intro hnil
      obtain ⟨p, hpn, hp1⟩ := List.mem_map.mp hid
      subst hp1
      apply List.mem_map.mpr
      refine ⟨p, List.mem_filter.mpr ⟨hpn, ?_⟩, rfl⟩
      simp only [decide_eq_true_eq]
      rw [hdeg p hpn, hnil]
      rfl
  · intro i hi
    simp at hi

/-- Kahn's algorithm as the engine runs it ends with an empty queue and an
output satisfying the loop invariant. -/
theorem kahnSort_inv (dag : DAG) (hD : DWF dag) :
    ∃ inDeg2, KInv dag inDeg2 [] (kahnSort dag) := by
  obtain ⟨inDeg2, s2, heq, hinv⟩ := kahnLoop_drain dag hD (dag.nodes.length + 1)
    ((dag.nodes.filter (fun p => p.2.inDegree = 0)).map Prod.fst)
    (dag.nodes.map (fun p => (p.1, p.2.inDegree))) [] (KInv_init dag hD)
    (by simp [nodeIds])
  have hs : kahnSort dag = s2 := by
    show (kahnLoop dag.edges (dag.nodes.length + 1)
      (dag.nodes.map (fun p => (p.1, p.2.inDegree)))
      ((dag.nodes.filter (fun p => p.2.inDegree = 0)).map Prod.fst) []).2.2 = s2
    rw [heq]
  rw [hs]
  exact ⟨inDeg2, hinv⟩

/-- `Map.set` of a fresh key appends the entry. -/
theorem setA_of_not_mem {α : Type} (m : List (String × α)) (k : String) (v : α)
    (h : k ∉ m.map Prod.fst) : setA m k v = m ++ [(k, v)] := by
  induction m with
  | nil => rfl
  | cons hd rest ih =>
    simp only [List.map_cons, List.mem_cons, not_or] at h
    rw [setA, if_neg (fun he => h.1 he.symm), ih h.2]
    rfl

/-- The node/edge creation pass of `build` appends one entry per step, in
step order, when step ids never repeat. -/
theorem buildInit_go :
    ∀ (steps : List StepDefinition) (n : List (String × DAGNode))
      (e : List (String × List String)),
      (steps.map StepDefinition.id).Nodup →
      (∀ s ∈ steps, s.id ∉ n.map Prod.fst) →
      (∀ s ∈ steps, s.id ∉ e.map Prod.fst) →
      steps.foldl
        (fun (acc : List (String × DAGNode) × List (String × List String)) s =>
          (setA acc.1 s.id ⟨s, 0, 0⟩, setA acc.2 s.id (s.dependencies.getD [])))
        (n, e) =
      (n ++ steps.map (fun s => (s.id, (⟨s, 0, 0⟩ : DAGNode))),
        e ++ steps.map (fun s => (s.id, s.dependencies.getD []))) := by
  intro steps
  induction steps with
  | nil =>
    intro n e _ _ _
    simp
  | cons s rest ih =>
    intro n e hnd hn he
    simp only [List.map_cons, List.nodup_cons] at hnd
    rw [List.foldl_cons]
    have h1 : setA n s.id (⟨s, 0, 0⟩ : DAGNode) = n ++ [(s.id, (⟨s, 0, 0⟩ : DAGNode))] :=
      setA_of_not_mem n s.id _ (hn s (List.mem_cons_self _ _))
    have h2 : setA e s.id (s.dependencies.getD []) = e ++ [(s.id, s.dependencies.getD [])] :=
      setA_of_not_mem e s.id _ (he s (List.mem_cons_self _ _))
    rw [h1, h2]
    rw [ih (n ++ [(s.id, (⟨s, 0, 0⟩ : DAGNode))]) (e ++ [(s.id, s.dependencies.getD [])])
      hnd.2 ?hn2 ?he2]
    case hn2 =>
      intro t ht
      simp only [List.map_append, List.mem_append, not_or]
      refine ⟨hn t (List.mem_cons_of_mem _ ht), ?_⟩
      simp only [List.map_cons, List.map_nil, List.mem_singleton]
      intro hx
      exact hnd.1 (hx ▸ List.mem_map.mpr ⟨t, ht, rfl⟩)
    case he2 =>
      intro t ht
      simp only [List.map_append, List.mem_append, not_or]
      refine ⟨he t (List.mem_cons_of_mem _ ht), ?_⟩
      simp only [List.map_cons, List.map_nil, List.mem_singleton]
      intro hx
      exact hnd.1 (hx ▸ List.mem_map.mpr ⟨t, ht, rfl⟩)
    simp

/-- `applyOut` never changes the key list. -/
theorem keys_applyOut :
    ∀ (ds : List String) (ns : List (String × DAGNode)),
      (applyOut ns ds).map Prod.fst = ns.map Prod.fst := by
  intro ds
  induction ds with
  | nil => intro ns; rfl
  | cons d rest ih =>
    intro ns
    show (applyOut (modifyA ns d _) rest).map Prod.fst = ns.map Prod.fst
    rw [ih (modifyA ns d _), keys_modifyA]

/-- `buildDegrees` never changes the key list. -/
theorem keys_buildDegrees :
    ∀ (steps : List StepDefinition) (ns : List (String × DAGNode)),
      (buildDegrees steps ns).map Prod.fst = ns.map Prod.fst := by
  intro steps
  induction steps with
  | nil => intro ns; rfl
  | cons s rest ih =>
    intro ns
    show (buildDegrees rest (applyOut (modifyA ns s.id _) _)).map Prod.fst = ns.map Prod.fst
    rw [ih, keys_applyOut, keys_modifyA]

/-- `applyOut` only touches out-degrees: in-degree lookups are unchanged. -/
theorem lookupA_applyOut_inDeg :
    ∀ (ds : List String) (ns : List (String × DAGNode)) (k : String),
      (lookupA (applyOut ns ds) k).map (fun n => n.inDegree) =
        (lookupA ns k).map (fun n => n.inDegree) := by
  intro ds
  induction ds with
  | nil => intro ns k; rfl
  | cons d rest ih =>
    intro ns k
    show (lookupA (applyOut (modifyA ns d _) rest) k).map _ = _
    rw [ih (modifyA ns d _) k, lookupA_modifyA]
    by_cases hdk : d = k
    · rw [if_pos hdk]
      cases lookupA ns k with
      | none => rfl
      | some n => rfl
    · rw [if_neg hdk]

/-- In-degree lookups of keys outside the remaining steps are unchanged by
`buildDegrees`. -/
theorem buildDegrees_inDeg_frame :
    ∀ (steps : List StepDefinition) (ns : List (String × DAGNode)) (k : String),
      k ∉ steps.map StepDefinition.id →
      (lookupA (buildDegrees steps ns) k).map (fun n => n.inDegree) =
        (lookupA ns k).map (fun n => n.inDegree) := by
  intro steps
  induction steps with
  | nil => intro ns k _; rfl
  | cons s rest ih =>
    intro ns k hk
    simp only [List.map_cons, List.mem_cons, not_or] at hk
    show (lookupA (buildDegrees rest (applyOut (modifyA ns s.id _) _)) k).map _ = _
    rw [ih _ k hk.2, lookupA_applyOut_inDeg, lookupA_modifyA,
      if_neg (fun he => hk.1 he.symm)]

/-- After `buildDegrees`, every step's stored in-degree is its dependency
count. -/
theorem buildDegrees_inDeg :
    ∀ (steps : List StepDefinition) (ns : List (String × DAGNode)),
      (steps.map StepDefinition.id).Nodup →
      (∀ s ∈ steps, s.id ∈ ns.map Prod.fst) →
      ∀ s ∈ steps, (lookupA (buildDegrees steps ns) s.id).map (fun n => n.inDegree) =
        some (((s.dependencies.getD []).length : Nat) : Int) := by
  intro steps
  induction steps with
  | nil =>
    intro ns _ _ s hs
    simp at hs
  | cons s rest ih =>
    intro ns hnd hkeys t ht
    simp only [List.map_cons, List.nodup_cons] at hnd
    show (lookupA (buildDegrees rest (applyOut (modifyA ns s.id
      (fun n => { n with inDegree := ((s.dependencies.getD []).length : Int) }))
      (s.dependencies.getD []))) t.id).map (fun n => n.inDegree) = _
    rcases List.mem_cons.mp ht with h1 | h2
    · subst h1
      have hfr := buildDegrees_inDeg_frame rest
        (applyOut (modifyA ns t.id
          (fun n => { n with inDegree := ((t.dependencies.getD []).length : Int) }))
          (t.dependencies.getD [])) t.id hnd.1
      rw [hfr, lookupA_applyOut_inDeg, lookupA_modifyA, if_pos rfl]
      obtain ⟨v, hv⟩ := lookupA_isSome_of_mem_keys ns t.id (hkeys t (List.mem_cons_self _ _))
      rw [hv]
      rfl
    · apply ih _ hnd.2 _ t h2
      intro u hu
      rw [keys_applyOut, keys_modifyA]
      exact hkeys u (List.mem_cons_of_mem _ hu)

/-- Lookup in an association list built by mapping each step to a keyed
entry, at a step's id, with duplicate-free ids. -/
theorem lookupA_map_of_mem {α : Type} (f : StepDefinition → α)
    (steps : List StepDefinition) (hnd : (steps.map StepDefinition.id).Nodup)
    (s : StepDefinition) (hs : s ∈ steps) :
    lookupA (steps.map (fun t => (t.id, f t))) s.id = some (f s) := by
  have hkeys : ((steps.map (fun t => (t.id, f t))).map Prod.fst).Nodup := by
    rw [List.map_map]
    exact hnd
  exact lookupA_eq_some_of_mem_nodup _ hkeys (s.id, f s) (List.mem_map.mpr ⟨s, hs, rfl⟩)

/-- `DAGBuilder.build` of a well-formed definition yields a well-formed DAG:
keys are the step ids, edge entries are the dependency lists, and every
stored in-degree is the dependency count. -/
theorem DWF_build (d : WorkflowDefinition) (hwf : WF d) : DWF (build d) := by
  obtain ⟨hne, hnd, hsteps⟩ := hwf
  have hinit := buildInit_go d.steps [] [] hnd (by simp) (by simp)
  have hinit1 : (buildInit d.steps).1 =
      d.steps.map (fun s => (s.id, (⟨s, 0, 0⟩ : DAGNode))) := by
    rw [show (buildInit d.steps) = d.steps.foldl
      (fun (acc : List (String × DAGNode) × List (String × List String)) s =>
        (setA acc.1 s.id ⟨s, 0, 0⟩, setA acc.2 s.id (s.dependencies.getD [])))
      ([], []) from rfl, hinit]
    simp
  have hedges : (build d).edges = d.steps.map (fun s => (s.id, s.dependencies.getD [])) := by
    rw [show (build d).edges = (buildInit d.steps).2 from rfl,
      show (buildInit d.steps) = d.steps.foldl
        (fun (acc : List (String × DAGNode) × List (String × List String)) s =>
          (setA acc.1 s.id ⟨s, 0, 0⟩, setA acc.2 s.id (s.dependencies.getD [])))
        ([], []) from rfl, hinit]
    simp
  have hnodes_keys : (build d).nodes.map Prod.fst = d.steps.map StepDefinition.id := by
    rw [show (build d).nodes = buildDegrees d.steps (buildInit d.steps).1 from rfl,
      keys_buildDegrees, hinit1, List.map_map]
    rfl
  have hN : nodeIds (build d) = d.steps.map StepDefinition.id := hnodes_keys
  have hdepsOf : ∀ s ∈ d.steps, depsOf (build d) s.id = s.dependencies.getD [] := by
    intro s hs
    rw [depsOf, hedges, lookupA_map_of_mem (fun t => t.dependencies.getD []) d.steps hnd s hs]
    rfl
  refine ⟨?_, ?_, ?_, ?_, ?_⟩
  · intro h
    apply hne
    have hkeys0 := congrArg (List.map Prod.fst) h
    rw [hnodes_keys] at hkeys0
    simpa using List.map_eq_nil_iff.mp hkeys0
  · rw [show nodeIds (build d) = (build d).nodes.map Prod.fst from rfl, hnodes_keys]
    exact hnd
  · rw [hedges, hN, List.map_map]
    rfl
  · intro p hp
    rw [hedges] at hp
    obtain ⟨s, hs, hp1⟩ := List.mem_map.mp hp
    obtain ⟨h1, h2⟩ := hsteps s hs
    rw [← hp1]
    refine ⟨h1, ?_⟩
    intro a ha
    rw [hN]
    exact h2 a ha
  · intro p hp
    have hkmem : p.1 ∈ d.steps.map StepDefinition.id := by
      rw [← hnodes_keys]
      exact List.mem_map.mpr ⟨p, hp, rfl⟩
    obtain ⟨s, hs, hsid⟩ := List.mem_map.mp hkmem
    have hnodupn : ((build d).nodes.map Prod.fst).Nodup := by
      rw [hnodes_keys]
      exact hnd
    have hlp : lookupA (build d).nodes p.1 = some p.2 :=
      lookupA_eq_some_of_mem_nodup _ hnodupn p hp
    have hbase : ∀ t ∈ d.steps, t.id ∈ ((buildInit d.steps).1).map Prod.fst := by
      intro t ht
      rw [hinit1, List.map_map]
      exact List.mem_map.mpr ⟨t, ht, rfl⟩
    have hdg := buildDegrees_inDeg d.steps ((buildInit d.steps).1) hnd hbase s hs
    rw [hsid] at hdg
    rw [show lookupA (buildDegrees d.steps (buildInit d.steps).1) p.1 =
      lookupA (build d).nodes p.1 from rfl, hlp, Option.map_some'] at hdg
    injection hdg with hdg
    rw [hdg]
    have hd2 : depsOf (build d) p.1 = s.dependencies.getD [] := by
      rw [← hsid]
      exact hdepsOf s hs
    rw [hd2]

/-- In a well-formed DAG a dependency edge only connects existing nodes. -/
theorem depRel_mem (dag : DAG) (hD : DWF dag) (a b : String) (h : depRel dag a b) :
    a ∈ nodeIds dag ∧ b ∈ nodeIds dag := by
  obtain ⟨-, hnodupN, hkeys, hdeps, -⟩ := hD
  have hb : b ∈ nodeIds dag := by
    by_contra hb
    have hnone : lookupA dag.edges b = none :=
      lookupA_eq_none_of_not_mem _ _ (by rw [hkeys]; exact hb)
    rw [depRel, depsOf, hnone] at h
    simp at h
  refine ⟨?_, hb⟩
  have hbk : b ∈ dag.edges.map Prod.fst := by rw [hkeys]; exact hb
  obtain ⟨p, hp, hp1⟩ := List.mem_map.mp hbk
  have hknodup : (dag.edges.map Prod.fst).Nodup := by rw [hkeys]; exact hnodupN
  have hlp : lookupA dag.edges b = some p.2 := by
    rw [← hp1]
    exact lookupA_eq_some_of_mem_nodup _ hknodup p hp
  rw [depRel, depsOf, hlp] at h
  exact (hdeps p hp).2 h

/-- When the dependency relation is acyclic, Kahn's algorithm outputs every
node: otherwise the leftover nodes would chain into a cycle. -/
theorem kahn_complete (dag : DAG) (hD : DWF dag) (hnc : ¬ HasCycle dag) :
    ∀ id ∈ nodeIds dag, id ∈ kahnSort dag := by
  obtain ⟨inDeg2, hinv⟩ := kahnSort_inv dag hD
  obtain ⟨hndk, hsub, -, -, hqc, hord⟩ := hinv
  by_contra hcon
  push_neg at hcon
  obtain ⟨u0, hu0N, hu0s⟩ := hcon
  have hstep : ∀ u, u ∈ nodeIds dag → u ∉ kahnSort dag →
      ∃ v, v ∈ nodeIds dag ∧ v ∉ kahnSort dag ∧ depRel dag v u := by
    intro u huN hus
    have hpend : ¬ (pendingDeps dag (kahnSort dag) u = []) := by
      intro hh
      have hq := (hqc u huN hus).mpr hh
      simp at hq
    obtain ⟨v, hv⟩ := List.exists_mem_of_ne_nil _ hpend
    obtain ⟨hvd, hvs⟩ := (mem_pendingDeps _ _ _ _).mp hv
    exact ⟨v, (depRel_mem dag hD v u hvd).1, hvs, hvd⟩
  have hstepT : ∀ t : {x : String // x ∈ nodeIds dag ∧ x ∉ kahnSort dag},
      ∃ t2 : {x : String // x ∈ nodeIds dag ∧ x ∉ kahnSort dag}, depRel dag t2.1 t.1 := by
    intro t
    obtain ⟨v, h1, h2, h3⟩ := hstep t.1 t.2.1 t.2.2
    exact ⟨⟨v, h1, h2⟩, h3⟩
  choose f hf using hstepT
  have hg : ∀ n : Nat, depRel dag (f^[n + 1] ⟨u0, hu0N, hu0s⟩).1 (f^[n] ⟨u0, hu0N, hu0s⟩).1 := by
    intro n
    rw [Function.iterate_succ_apply']
    exact hf (f^[n] ⟨u0, hu0N, hu0s⟩)
  have hchain : ∀ i k : Nat, Relation.TransGen (depRel dag)
      (f^[i + k + 1] ⟨u0, hu0N, hu0s⟩).1 (f^[i] ⟨u0, hu0N, hu0s⟩).1 := by
    intro i k
    induction k with
    | zero => exact Relation.TransGen.single (hg i)
    | succ k ihk => exact Relation.TransGen.head (hg (i + k + 1)) ihk
  have hmaps : ∀ n ∈ Finset.range ((nodeIds dag).length + 1),
      (f^[n] ⟨u0, hu0N, hu0s⟩).1 ∈ (nodeIds dag).toFinset := by
    intro n _
    exact List.mem_toFinset.mpr (f^[n] ⟨u0, hu0N, hu0s⟩).2.1
  have hcard : (nodeIds dag).toFinset.card < (Finset.range ((nodeIds dag).length + 1)).card := by
    rw [Finset.card_range]
    exact Nat.lt_succ_of_le (nodeIds dag).toFinset_card_le
  obtain ⟨i, hi, j, hj, hij, hgij⟩ :=
    Finset.exists_ne_map_eq_of_card_lt_of_maps_to hcard hmaps
  rcases Nat.lt_or_ge i j with hlt | hge
  · have hch := hchain i (j - i - 1)
    rw [show i + (j - i - 1) + 1 = j from by omega] at hch
    rw [← hgij] at hch
    exact hnc ⟨(f^[i] ⟨u0, hu0N, hu0s⟩).1, hch⟩
  · have hlt2 : j < i := Nat.lt_of_le_of_ne hge (fun he => hij he.symm)
    have hch := hchain j (i - j - 1)
    rw [show j + (i - j - 1) + 1 = i from by omega] at hch
    rw [hgij] at hch
    exact hnc ⟨(f^[j] ⟨u0, hu0N, hu0s⟩).1, hch⟩

/-- When Kahn's algorithm outputs every node, its output is a permutation of
the node set in which every node follows all of its dependencies. -/
theorem kahn_topo (dag : DAG) (hD : DWF dag)
    (hcomp : ∀ id ∈ nodeIds dag, id ∈ kahnSort dag) :
    (kahnSort dag).Perm (nodeIds dag) ∧
      ∀ b ∈ nodeIds dag, ∀ a ∈ depsOf dag b, IdxBefore (kahnSort dag) a b := by
  obtain ⟨inDeg2, hinv⟩ := kahnSort_inv dag hD
  obtain ⟨hndk, hsub, -, -, -, hord⟩ := hinv
  have hnds : (kahnSort dag).Nodup := by simpa using hndk
  constructor
  · exact (List.subperm_of_subset hnds hsub).antisymm
      (List.subperm_of_subset hD.2.1 (fun x hx => hcomp x hx))
  · intro b hbN a ha
    obtain ⟨⟨j, hj⟩, hgj⟩ := List.mem_iff_get.mp (hcomp b hbN)
    have hat : a ∈ (kahnSort dag).take j := hord j hj a (by rw [hgj]; exact ha)
    obtain ⟨⟨i, hi⟩, hgi⟩ := List.mem_iff_get.mp hat
    have hij : i < j := lt_of_lt_of_le hi (by simp [List.length_take])
    have hil : i < (kahnSort dag).length := lt_trans hij hj
    refine ⟨i, j, hil, hj, hij, ?_, hgj⟩
    rw [← hgi]
    simp [List.getElem_take]
  
/-- When the dependency relation has a cycle, Kahn's algorithm cannot output
every node: along an edge the output index strictly increases. -/
theorem kahn_incomplete (dag : DAG) (hD : DWF dag) (hc : HasCycle dag) :
    (kahnSort dag).length ≠ (nodeIds dag).length := by
  obtain ⟨inDeg2, hinv⟩ := kahnSort_inv dag hD
  obtain ⟨hndk, hsub, -, -, -, hord⟩ := hinv
  have hnds : (kahnSort dag).Nodup := by simpa using hndk
  intro hlen
  have hfsub : (kahnSort dag).toFinset ⊆ (nodeIds dag).toFinset := fun x hx =>
    List.mem_toFinset.mpr (hsub (List.mem_toFinset.mp hx))
  have hfeq : (kahnSort dag).toFinset = (nodeIds dag).toFinset := by
    apply Finset.eq_of_subset_of_card_le hfsub
    rw [List.toFinset_card_of_nodup hnds, List.toFinset_card_of_nodup hD.2.1, hlen]
  have hsub2 : nodeIds dag ⊆ kahnSort dag := fun x hx =>
    List.mem_toFinset.mp (hfeq ▸ List.mem_toFinset.mpr hx)
  have hstepidx : ∀ a b, depRel dag a b →
      (kahnSort dag).indexOf a < (kahnSort dag).indexOf b := by
    intro a b hr
    have hbs : b ∈ kahnSort dag := hsub2 (depRel_mem dag hD a b hr).2
    have hjlt : (kahnSort dag).indexOf b < (kahnSort dag).length :=
      List.indexOf_lt_length.mpr hbs
    have hgb : (kahnSort dag).get ⟨(kahnSort dag).indexOf b, hjlt⟩ = b :=
      List.indexOf_get hjlt
    have hmem := hord ((kahnSort dag).indexOf b) hjlt a (by rw [hgb]; exact hr)
    exact indexOf_lt_of_mem_take a (kahnSort dag) _ hmem
  have hmono : ∀ a b, Relation.TransGen (depRel dag) a b →
      (kahnSort dag).indexOf a < (kahnSort dag).indexOf b := by
    intro a b h
    induction h with
    | single hr => exact hstepidx _ _ hr
    | tail h2 hr ih => exact lt_trans ih (hstepidx _ _ hr)
  obtain ⟨x, hx⟩ := hc
  exact lt_irrefl _ (hmono x x hx)

/-- The cycle walk of `findCycleFromNode` starts inside the cycle set and
never leaves it: every node it appends (the next unvisited in-cycle
dependency, the start node, or a previously visited node) is in the set. -/
theorem cycleLoop_inCycle (dag : DAG) (start : String) (inCycle : List String)
    (hstart : start ∈ inCycle) :
    ∀ (fuel : Nat) (current : String) (visited path : List String),
      path ≠ [] → (∀ x ∈ path, x ∈ inCycle) → (∀ x ∈ visited, x ∈ inCycle) →
      cycleLoop dag start inCycle fuel current visited path ≠ [] ∧
        ∀ x ∈ cycleLoop dag start inCycle fuel current visited path, x ∈ inCycle := by
  intro fuel
  induction fuel with
  | zero =>
    intro current visited path h1 h2 _
    exact ⟨h1, h2⟩
  | succ fuel ih =>
    intro current visited path h1 h2 h3
    have hrx : cycleLoop dag start inCycle (fuel + 1) current visited path =
        (match (depsOf dag current).find? (fun d => d ∈ inCycle ∧ d ∉ visited) with
        | some nxt => cycleLoop dag start inCycle fuel nxt (visited ++ [nxt]) (path ++ [nxt])
        | none =>
          if start ∈ depsOf dag current then path ++ [start]
          else
            match (depsOf dag current).find? (fun d => d ∈ visited) with
            | some b => path ++ [b]
            | none => path) := rfl
    rcases hf : (depsOf dag current).find? (fun d => d ∈ inCycle ∧ d ∉ visited) with _ | nxt
    · by_cases hs : start ∈ depsOf dag current
      · have he : cycleLoop dag start inCycle (fuel + 1) current visited path =
            path ++ [start] := by
          rw [hrx, hf, if_pos hs]
        rw [he]
        refine ⟨by simp, ?_⟩
        intro x hx
        rcases List.mem_append.mp hx with hx1 | hx2
        · exact h2 x hx1
        · rw [List.mem_singleton.mp hx2]
          exact hstart
      · rcases hf2 : (depsOf dag current).find? (fun d => d ∈ visited) with _ | b
        · have he : cycleLoop dag start inCycle (fuel + 1) current visited path = path := by
            rw [hrx, hf, if_neg hs, hf2]
          rw [he]
          exact ⟨h1, h2⟩
        · have he : cycleLoop dag start inCycle (fuel + 1) current visited path =
              path ++ [b] := by
            rw [hrx, hf, if_neg hs, hf2]
          rw [he]
          have hbv := List.find?_some hf2
          simp only [decide_eq_true_eq] at hbv
          refine ⟨by simp, ?_⟩
          intro x hx
          rcases List.mem_append.mp hx with hx1 | hx2
          · exact h2 x hx1
          · rw [List.mem_singleton.mp hx2]
            exact h3 b hbv
    · have he : cycleLoop dag start inCycle (fuel + 1) current visited path =
          cycleLoop dag start inCycle fuel nxt (visited ++ [nxt]) (path ++ [nxt]) := by
        rw [hrx, hf]
      rw [he]
      have hp := List.find?_some hf
      simp only [decide_eq_true_eq] at hp
      apply ih
      · simp
      · intro x hx
        rcases List.mem_append.mp hx with hx1 | hx2
        · exact h2 x hx1
        · rw [List.mem_singleton.mp hx2]
          exact hp.1
      · intro x hx
        rcases List.mem_append.mp hx with hx1 | hx2
        · exact h3 x hx1
        · rw [List.mem_singleton.mp hx2]
          exact hp.1

/-- When some node is missing from the Kahn output, `findCyclePath` returns a
nonempty path all of whose nodes are outside that output. -/
theorem findCyclePath_spec (dag : DAG) (sorted : List String)
    (hx : ∃ id ∈ nodeIds dag, id ∉ sorted) :
    findCyclePath dag sorted ≠ [] ∧
      ∀ x ∈ findCyclePath dag sorted, x ∈ nodeIds dag ∧ x ∉ sorted := by
  obtain ⟨id, hidN, hids⟩ := hx
  have hmem : id ∈ (nodeIds dag).filter (fun i => decide (i ∉ sorted)) :=
    List.mem_filter.mpr ⟨hidN, by simp [hids]⟩
  rcases hic : (nodeIds dag).filter (fun i => decide (i ∉ sorted)) with _ | ⟨start, restc⟩
  · rw [hic] at hmem
    simp at hmem
  · have hstart : start ∈ (nodeIds dag).filter (fun i => decide (i ∉ sorted)) := by
      rw [hic]
      exact List.mem_cons_self _ _
    have he : findCyclePath dag sorted =
        cycleLoop dag start (start :: restc) ((start :: restc).length + 1)
          start [start] [start] := by
      rw [show findCyclePath dag sorted =
        (match (nodeIds dag).filter (fun i => decide (i ∉ sorted)) with
        | [] => []
        | start :: _ => cycleLoop dag start
            ((nodeIds dag).filter (fun i => decide (i ∉ sorted)))
            (((nodeIds dag).filter (fun i => decide (i ∉ sorted))).length + 1)
            start [start] [start]) from rfl, hic]
    rw [he]
    have hsc : start ∈ (start :: restc) := List.mem_cons_self _ _
    obtain ⟨hnil, hsubc⟩ := cycleLoop_inCycle dag start (start :: restc) hsc
      ((start :: restc).length + 1) start [start] [start] (by simp)
      (by intro x hx2; rw [List.mem_singleton.mp hx2]; exact hsc)
      (by intro x hx2; rw [List.mem_singleton.mp hx2]; exact hsc)
    refine ⟨hnil, ?_⟩
    intro x hx2
    have hxc : x ∈ (start :: restc) := hsubc x hx2
    rw [← hic] at hxc
    have := List.mem_filter.mp hxc
    simp only [decide_eq_true_eq] at this
    exact this

/-- In a well-formed DAG every dependency resolves to a node, so the
missing-dependency scan of `Scheduler.validate` produces no error. -/
theorem missingDepErrors_nil (dag : DAG) (hD : DWF dag) : missingDepErrors dag = [] := by
  obtain ⟨-, hnodupN, hkeys, hdeps, -⟩ := hD
  rw [missingDepErrors, List.flatMap_eq_nil_iff]
  intro e he
  rw [List.map_eq_nil_iff, List.filter_eq_nil_iff]
  intro depId hdep
  have hdN : depId ∈ nodeIds dag := (hdeps e he).2 hdep
  obtain ⟨v, hv⟩ := lookupA_isSome_of_mem_keys dag.nodes depId hdN
  simp [hv]

/-- Closed form of the creation pass for duplicate-free step ids. -/
theorem buildInit_eq (steps : List StepDefinition)
    (hnd : (steps.map StepDefinition.id).Nodup) :
    buildInit steps = (steps.map (fun s => (s.id, (⟨s, 0, 0⟩ : DAGNode))),
      steps.map (fun s => (s.id, s.dependencies.getD []))) := by
  have hinit := buildInit_go steps [] [] hnd (by simp) (by simp)
  rw [show buildInit steps = steps.foldl
    (fun (acc : List (String × DAGNode) × List (String × List String)) s =>
      (setA acc.1 s.id ⟨s, 0, 0⟩, setA acc.2 s.id (s.dependencies.getD [])))
    ([], []) from rfl, hinit]
  simp

/-- The built edge map lists each step's dependency list, keyed by step id. -/
theorem edges_build (d : WorkflowDefinition)
    (hnd : (d.steps.map StepDefinition.id).Nodup) :
    (build d).edges = d.steps.map (fun s => (s.id, s.dependencies.getD [])) := by
  rw [show (build d).edges = (buildInit d.steps).2 from rfl, buildInit_eq d.steps hnd]

/-- The built node set is exactly the step ids, in step order. -/
theorem nodeIds_build (d : WorkflowDefinition)
    (hnd : (d.steps.map StepDefinition.id).Nodup) :
    nodeIds (build d) = d.steps.map StepDefinition.id := by
  show (buildDegrees d.steps (buildInit d.steps).1).map Prod.fst = _
  rw [keys_buildDegrees, buildInit_eq d.steps hnd]
  simp only [List.map_map]
  rfl

/-- The built DAG reads back each step's dependency list. -/
theorem depsOf_build (d : WorkflowDefinition)
    (hnd : (d.steps.map StepDefinition.id).Nodup)
    (s : StepDefinition) (hs : s ∈ d.steps) :
    depsOf (build d) s.id = s.dependencies.getD [] := by
  rw [depsOf, edges_build d hnd,
    lookupA_map_of_mem (fun t => t.dependencies.getD []) d.steps hnd s hs]
  rfl

/-- On a well-formed DAG, `Scheduler.validate` reduces to cycle detection:
the emptiness and missing-dependency checks pass. -/
theorem validate_of_wf (dag : DAG) (hD : DWF dag) :
    validate dag = (match detectCycle dag with
      | some cyclePath => .error cyclePath
      | none => .ok ⟨true, none⟩) := by
  have h0 : ¬ dag.nodes.length = 0 := by
    intro hh
    exact hD.1 (List.eq_nil_of_length_eq_zero hh)
  rw [show validate dag = (if dag.nodes.length = 0
      then Except.ok ⟨false, some ["工作流定义不能为空"]⟩
      else (if (missingDepErrors dag).length > 0
        then Except.ok ⟨false, some (missingDepErrors dag)⟩
        else (match detectCycle dag with
          | some cyclePath => Except.error cyclePath
          | none => Except.ok ⟨true, none⟩))) from rfl]
  rw [if_neg h0, missingDepErrors_nil dag hD]
  rfl

/-- Unfolding of `detectCycle` by the completeness test. -/
theorem detectCycle_eq (dag : DAG) :
    detectCycle dag = (if (kahnSort dag).length ≠ dag.nodes.length
      then some (findCyclePath dag (kahnSort dag)) else none) := rfl

/-- Unfolding of `topologicalSort` by the completeness test. -/
theorem topologicalSort_eq (dag : DAG) :
    topologicalSort dag = (if (kahnSort dag).length ≠ dag.nodes.length
      then .error ((detectCycle dag).getD []) else .ok (kahnSort dag)) := rfl

/-- C6, counterexample to the claim as stated: a cycle-free definition (one
step `A` naming a nonexistent dependency `X`) on which validation does not
succeed — it reports the missing dependency — and `topologicalSort` raises a
`CyclicDependencyError` whose recovered path is `["A"]`, even though the
dependency relation has no cycle.  The claim needs the definition to be
well-formed (existing, duplicate-free dependencies). -/
theorem c6_counterexample :
    ¬ HasCycle (build ⟨"w", "w", [⟨"A", "A", "task", some ["X"], none, none, none⟩]⟩) ∧
    validate (build ⟨"w", "w", [⟨"A", "A", "task", some ["X"], none, none, none⟩]⟩) =
      .ok ⟨false, some ["步骤 \"A\" 依赖的步骤 \"X\" 不存在"]⟩ ∧
    topologicalSort (build ⟨"w", "w", [⟨"A", "A", "task", some ["X"], none, none, none⟩]⟩) =
      .error ["A"] := by
  refine ⟨?_, by rfl, by rfl⟩
  rintro ⟨x, hx⟩
  have hdec : ∀ a b : String,
      depRel (build ⟨"w", "w", [⟨"A", "A", "task", some ["X"], none, none, none⟩]⟩) a b →
      b = "A" ∧ a = "X" := by
    intro a b h
    have hedges : (build ⟨"w", "w",
        [⟨"A", "A", "task", some ["X"], none, none, none⟩]⟩).edges = [("A", ["X"])] := rfl
    simp only [depRel, depsOf, hedges, lookupA] at h
    by_cases hb : "A" = b
    · rw [if_pos hb] at h
      simp only [Option.getD_some, List.mem_singleton] at h
      exact ⟨hb.symm, h⟩
    · rw [if_neg hb] at h
      simp at h
  have hkey : ∀ a b : String, Relation.TransGen
      (depRel (build ⟨"w", "w", [⟨"A", "A", "task", some ["X"], none, none, none⟩]⟩)) a b →
      b = "A" ∧ a = "X" := by
    intro a b h
    induction h with
    | single hr => exact hdec _ _ hr
    | tail h2 hr ih =>
      obtain ⟨hb, hm⟩ := hdec _ _ hr
      exact absurd (ih.1.symm.trans hm) (by decide)
  obtain ⟨h1, h2⟩ := hkey x x hx
  exact absurd (h1.symm.trans h2) (by decide)

/-- C6, corrected (well-formedness precondition added).  For a well-formed
definition (nonempty, duplicate-free step ids, duplicate-free dependency
lists naming existing steps): if the dependency relation is acyclic,
`validate` succeeds and `topologicalSort` returns the Kahn output, a
permutation of the step ids placing every step after all of its
dependencies; if it has a cycle, both raise `CyclicDependencyError` with the
same nonempty path, all of whose nodes are missing from the partial Kahn
output. -/
theorem c6_validation_topo_sort (d : WorkflowDefinition) (hwf : WF d) :
    (¬ HasCycle (build d) →
      validate (build d) = .ok ⟨true, none⟩ ∧
      topologicalSort (build d) = .ok (kahnSort (build d)) ∧
      (kahnSort (build d)).Perm (d.steps.map StepDefinition.id) ∧
      ∀ s ∈ d.steps, ∀ a ∈ s.dependencies.getD [],
        IdxBefore (kahnSort (build d)) a s.id) ∧
    (HasCycle (build d) →
      ∃ path, path ≠ [] ∧
        validate (build d) = .error path ∧
        topologicalSort (build d) = .error path ∧
        ∀ x ∈ path, x ∉ kahnSort (build d)) := by
  have hD := DWF_build d hwf
  have hnd : (d.steps.map StepDefinition.id).Nodup := hwf.2.1
  have hN := nodeIds_build d hnd
  have hlenN : (nodeIds (build d)).length = (build d).nodes.length := by
    simp [nodeIds]
  constructor
  · intro hnc
    have hcomp := kahn_complete (build d) hD hnc
    obtain ⟨hperm, htopo⟩ := kahn_topo (build d) hD hcomp
    have hlen : ¬ ((kahnSort (build d)).length ≠ (build d).nodes.length) := by
      intro hcr
      exact hcr (by rw [hperm.length_eq, hlenN])
    have hdc : detectCycle (build d) = none := by
      rw [detectCycle_eq, if_neg hlen]
    refine ⟨?_, ?_, ?_, ?_⟩
    · rw [validate_of_wf (build d) hD, hdc]
    · rw [topologicalSort_eq, if_neg hlen]
    · rw [← hN]
      exact hperm
    · intro s hs a ha
      apply htopo s.id (by rw [hN]; exact List.mem_map.mpr ⟨s, hs, rfl⟩) a
      rw [depsOf_build d hnd s hs]
      exact ha
  · intro hc
    have hne2 := kahn_incomplete (build d) hD hc
    have hlen : (kahnSort (build d)).length ≠ (build d).nodes.length := by
      rw [← hlenN]
      exact hne2
    have hexists : ∃ id ∈ nodeIds (build d), id ∉ kahnSort (build d) := by
      by_contra hcon
      push_neg at hcon
      obtain ⟨inDeg2, hinv⟩ := kahnSort_inv (build d) hD
      have hnds : (kahnSort (build d)).Nodup := by simpa using hinv.1
      have h1 := nodup_subset_length_le _ _ hnds hinv.2.1
      have h2 := nodup_subset_length_le _ _ hD.2.1 (fun x hx => hcon x hx)
      omega
    obtain ⟨hfnil, hfmem⟩ := findCyclePath_spec (build d) (kahnSort (build d)) hexists
    have hdc : detectCycle (build d) =
        some (findCyclePath (build d) (kahnSort (build d))) := by
      rw [detectCycle_eq, if_pos hlen]
    refine ⟨findCyclePath (build d) (kahnSort (build d)), hfnil, ?_, ?_, ?_⟩
    · rw [validate_of_wf (build d) hD, hdc]
    · rw [topologicalSort_eq, if_pos hlen, hdc]
      rfl
    · intro x hx
      exact (hfmem x hx).2

/-- C6, witness: the two-step cycle `A ↔ B` is well-formed, and the theorem
yields the common `CyclicDependencyError` of `validate` and
`topologicalSort` on it. -/
theorem c6_validation_topo_sort_witness :
    WF ⟨"w2", "w2", [⟨"A", "A", "task", some ["B"], none, none, none⟩,
      ⟨"B", "B", "task", some ["A"], none, none, none⟩]⟩ ∧
    ∃ path, path ≠ [] ∧
      validate (build ⟨"w2", "w2", [⟨"A", "A", "task", some ["B"], none, none, none⟩,
        ⟨"B", "B", "task", some ["A"], none, none, none⟩]⟩) = .error path ∧
      topologicalSort (build ⟨"w2", "w2",
        [⟨"A", "A", "task", some ["B"], none, none, none⟩,
          ⟨"B", "B", "task", some ["A"], none, none, none⟩]⟩) = .error path ∧
      ∀ x ∈ path, x ∉ kahnSort (build ⟨"w2", "w2",
        [⟨"A", "A", "task", some ["B"], none, none, none⟩,
          ⟨"B", "B", "task", some ["A"], none, none, none⟩]⟩) := by
  have hwf : WF ⟨"w2", "w2", [⟨"A", "A", "task", some ["B"], none, none, none⟩,
      ⟨"B", "B", "task", some ["A"], none, none, none⟩]⟩ :=
    ⟨List.cons_ne_nil _ _, by decide, by decide⟩
  refine ⟨hwf, ?_⟩
  apply (c6_validation_topo_sort _ hwf).2
  have r1 : depRel (build ⟨"w2", "w2", [⟨"A", "A", "task", some ["B"], none, none, none⟩,
      ⟨"B", "B", "task", some ["A"], none, none, none⟩]⟩) "A" "B" := by
    show ("A" : String) ∈ depsOf (build ⟨"w2", "w2",
      [⟨"A", "A", "task", some ["B"], none, none, none⟩,
        ⟨"B", "B", "task", some ["A"], none, none, none⟩]⟩) "B"
    decide
  have r2 : depRel (build ⟨"w2", "w2", [⟨"A", "A", "task", some ["B"], none, none, none⟩,
      ⟨"B", "B", "task", some ["A"], none, none, none⟩]⟩) "B" "A" := by
    show ("B" : String) ∈ depsOf (build ⟨"w2", "w2",
      [⟨"A", "A", "task", some ["B"], none, none, none⟩,
        ⟨"B", "B", "task", some ["A"], none, none, none⟩]⟩) "A"
    decide
  exact ⟨"A", Relation.TransGen.head r1 (Relation.TransGen.single r2)⟩

end Flowify
